import Mathlib

/-! # Escape-time fractal renderer (`src/src/fgen3.go`)

A shallow embedding of the third-generation fractal generator and proofs of
the properties its specification states.

Modelling conventions.

* `float64` values are exact rationals (`ℚ`); `complex128` is a pair of
  rationals (`Cplx`).  Infinities and NaN are not modelled.
* The pipeline is embedded in exact arithmetic: the test `cmplx.Abs(a) < t` is
  the exact comparison of the magnitude of `a` with `t`, over the rationals
  `0 < t ∧ re² + im² < t²`, and `math.Pow(val, .5)*255` is exact.
* The two library calls are embedded a second time with IEEE 754 binary64
  rounding (`cmplxAbsFloat64`, `sqrtTimes255Float64`), to show where rounding
  changes a result.
* Go `int` values are mathematical integers (`Int`); every counter of the
  program is bounded by `max_iterations` or by the pixel count, so no
  wrap-around is involved.
* `uint8` values are natural numbers reduced modulo `2^8`.
* A run-time panic (negative `make` length, index out of range) is `none`.
-/

namespace Fgen3

/-! ## Complex numbers -/

/-- Go `complex128`, over exact rationals. -/
structure Cplx where
  re : ℚ
  im : ℚ
deriving DecidableEq

namespace Cplx

/-- Complex addition `a + b`. -/
def add (a b : Cplx) : Cplx := ⟨a.re + b.re, a.im + b.im⟩

/-- Complex multiplication `a * b`. -/
def mul (a b : Cplx) : Cplx := ⟨a.re * b.re - a.im * b.im, a.re * b.im + a.im * b.re⟩

/-- The squared magnitude `re² + im²`. -/
def normSq (a : Cplx) : ℚ := a.re * a.re + a.im * a.im

end Cplx

/-- Go builtin `complex(x, y)`. -/
def complex (x y : ℚ) : Cplx := ⟨x, y⟩

/-- The comparison `cmplx.Abs(a) < t` in exact arithmetic: the magnitude is
non-negative, so it is below `t` exactly when `t` is positive and the squared
magnitude is below `t²`. -/
def cmplxAbsLt (a : Cplx) (t : ℚ) : Prop := 0 < t ∧ a.normSq < t * t

instance cmplxAbsLt.instDecidable (a : Cplx) (t : ℚ) : Decidable (cmplxAbsLt a t) := by
  unfold cmplxAbsLt; infer_instance

/-! ## Parameter records -/

/-- Colour `color.RGBA`: four `uint8` channels. -/
structure RGBA where
  R : Nat
  G : Nat
  B : Nat
  A : Nat
deriving DecidableEq, Repr

/-- Source type `point`. -/
structure point where
  X : ℚ
  Y : ℚ
deriving DecidableEq

/-- Source type `rectangle`. -/
structure rectangle where
  Min : point
  Max : point
deriving DecidableEq

/-- Method `rectangle.Dx`: `math.Abs(r.Min.X - r.Max.X)`. -/
def rectangle.Dx (r : rectangle) : ℚ := |r.Min.X - r.Max.X|

/-- Method `rectangle.Dy`: `math.Abs(r.Min.Y - r.Max.Y)`. -/
def rectangle.Dy (r : rectangle) : ℚ := |r.Min.Y - r.Max.Y|

/-- Library type `image.Point`. -/
structure ImagePoint where
  X : Int
  Y : Int
deriving DecidableEq, Repr

/-- Library type `image.Rectangle`. -/
structure ImageRectangle where
  Min : ImagePoint
  Max : ImagePoint
deriving DecidableEq, Repr

/-- Library method `image.Rectangle.Dx`: `r.Max.X - r.Min.X`. -/
def ImageRectangle.Dx (r : ImageRectangle) : Int := r.Max.X - r.Min.X

/-- Library method `image.Rectangle.Dy`: `r.Max.Y - r.Min.Y`. -/
def ImageRectangle.Dy (r : ImageRectangle) : Int := r.Max.Y - r.Min.Y

/-- Source type `chaoticFunction`. -/
abbrev chaoticFunction := Cplx → Cplx → Cplx

/-- Source type `colorScheme`. -/
abbrev colorScheme := ℚ → RGBA

/-- Source type `fractalParams`. -/
structure fractalParams where
  function : chaoticFunction
  start : Cplx

/-- Source type `renderingParams`. -/
structure renderingParams where
  max_iterations : Int
  escape_threshold : ℚ
  viewing_window : rectangle
  display_quality : ImageRectangle
  colorSchemeFunc : colorScheme

/-! ## Chaotic functions -/

/-- Source function `Man`: `a*a + b`. -/
def Man (a b : Cplx) : Cplx := (a.mul a).add b

/-! ## Escape evaluator -/

/-- The `for` loop of `GetEscapeIterations`, from the state `(a, iterations)`:
while `cmplx.Abs(a) < escape_threshold && iterations < max_iterations`, set
`a = function(a, b)` and increment `iterations`; the value is `iterations` at
loop exit.  The distance `max_iterations - iterations` decreases at every pass. -/
def escapeLoop (function : chaoticFunction) (b : Cplx) (escape_threshold : ℚ)
    (max_iterations : Int) (a : Cplx) (iterations : Int) : Int :=
  if cmplxAbsLt a escape_threshold ∧ iterations < max_iterations then
    escapeLoop function b escape_threshold max_iterations (function a b) (iterations + 1)
  else
    iterations
termination_by (max_iterations - iterations).toNat
decreasing_by
  rename_i h
  have := h.2
  omega

/-- Source function `GetEscapeIterations`. -/
def GetEscapeIterations (x y : ℚ) (fparams : fractalParams) (rparams : renderingParams) : Int :=
  escapeLoop fparams.function fparams.start rparams.escape_threshold rparams.max_iterations
    (complex x y) 1

/-- The iterate after `k` applications of the chaotic function to `complex(x, y)`. -/
def iterateAt (fparams : fractalParams) (x y : ℚ) (k : Nat) : Cplx :=
  (fun a => fparams.function a fparams.start)^[k] (complex x y)

/-! ## Colour schemes -/

/-- Conversion to `uint8`: reduction modulo `2^8`. -/
def toUint8 (n : Nat) : Nat := n % 256

/-- Subtraction of `uint8` values, wrapping modulo `2^8`. -/
def uint8Sub (a b : Nat) : Nat := (a % 256 + 256 - b % 256) % 256

/-- The integer part of `math.Pow(val, .5)*255` in exact arithmetic:
`⌊255·√val⌋ = ⌊√(65025·val)⌋`, the integer square root of `⌊65025·val⌋`.
For negative `val` (where `math.Pow` yields NaN) the value is taken as `0`. -/
def sqrtTimes255 (val : ℚ) : Nat := Nat.sqrt ⌊val * 65025⌋.toNat

/-- Source function `BlackAndGreen`. -/
def BlackAndGreen (val : ℚ) : RGBA :=
  if val = 1 then
    ⟨0, 0, 0, 255⟩
  else
    let r := toUint8 0
    let g := uint8Sub 255 (toUint8 (sqrtTimes255 val))
    let b := uint8Sub (255 / 2) (toUint8 (sqrtTimes255 val) / 2)
    let a := toUint8 255
    ⟨r, g, b, a⟩

/-! ## Slices and images -/

/-- Go `make([]T, n)`: `n` zero values; a negative length panics. -/
def makeSlice {α : Type} (zero : α) (n : Int) : Option (List α) :=
  if n < 0 then none else some (List.replicate n.toNat zero)

/-- Indexed read `s[i]` with an `int` index; out of range panics. -/
def getAt {α : Type} (s : List α) (i : Int) : Option α :=
  if 0 ≤ i then s[i.toNat]? else none

/-- Indexed write `s[i] = v` with an `int` index; out of range panics. -/
def setAt {α : Type} (s : List α) (i : Int) (v : α) : Option (List α) :=
  if 0 ≤ i ∧ i < s.length then some (s.set i.toNat v) else none

/-- Library type `image.RGBA`: its bounds and the colour stored at each point. -/
structure RGBAImage where
  Rect : ImageRectangle
  pix : Int → Int → RGBA

/-- Library function `image.NewRGBA`: an image with the given bounds, every
pixel zero; negative dimensions panic. -/
def NewRGBA (r : ImageRectangle) : Option RGBAImage :=
  if r.Dx < 0 ∨ r.Dy < 0 then none else some ⟨r, fun _ _ => ⟨0, 0, 0, 0⟩⟩

/-- Library method `image.Point.In`. -/
def ImagePoint.In (p : ImagePoint) (r : ImageRectangle) : Prop :=
  r.Min.X ≤ p.X ∧ p.X < r.Max.X ∧ r.Min.Y ≤ p.Y ∧ p.Y < r.Max.Y

instance ImagePoint.instDecidableIn (p : ImagePoint) (r : ImageRectangle) :
    Decidable (p.In r) := by
  unfold ImagePoint.In; infer_instance

/-- Library method `image.RGBA.SetRGBA`: a point outside the bounds is ignored. -/
def RGBAImage.SetRGBA (im : RGBAImage) (x y : Int) (c : RGBA) : RGBAImage :=
  if (ImagePoint.mk x y).In im.Rect then
    ⟨im.Rect, fun x1 y1 => if x1 = x ∧ y1 = y then c else im.pix x1 y1⟩
  else
    im

/-- Library method `image.RGBA.RGBAAt`: zero outside the bounds. -/
def RGBAImage.RGBAAt (im : RGBAImage) (x y : Int) : RGBA :=
  if (ImagePoint.mk x y).In im.Rect then im.pix x y else ⟨0, 0, 0, 0⟩

/-! ## Rendering pipeline -/

/-- The index pairs visited by `for x := 0; x < Dx; x++ { for y := 0; y < Dy; y++ {..} }`,
in loop order. -/
def gridPixels (Dx Dy : Int) : List (Nat × Nat) :=
  (List.range Dx.toNat).flatMap fun x => (List.range Dy.toNat).map fun y => (x, y)

/-- Allocation of `tmp_img`: `make([][]int, Dx)` and then `make([]int, Dy)`
for every column. -/
def makeBuffer (Dx Dy : Int) : Option (List (List Int)) := do
  let tmp_img ← makeSlice ([] : List Int) Dx
  tmp_img.mapM fun _ => makeSlice (0 : Int) Dy

/-- Read of the cell `tmp_img[x][y]`. -/
def getCell (tmp_img : List (List Int)) (x y : Nat) : Option Int := do
  let col ← tmp_img[x]?
  col[y]?

/-- Write `tmp_img[ax][ay] = v`. -/
def setCell (tmp_img : List (List Int)) (ax ay : Nat) (v : Int) : Option (List (List Int)) := do
  let col ← tmp_img[ax]?
  if ay < col.length then some (tmp_img.set ax (col.set ay v)) else none

/-- Step `dx` of `CreateFractalImage`: `viewing_window.Dx() / float64(display_quality.Dx())`. -/
def stepX (rparams : renderingParams) : ℚ :=
  rparams.viewing_window.Dx / (rparams.display_quality.Dx : ℚ)

/-- Step `dy` of `CreateFractalImage`: `viewing_window.Dy() / float64(display_quality.Dy())`. -/
def stepY (rparams : renderingParams) : ℚ :=
  rparams.viewing_window.Dy / (rparams.display_quality.Dy : ℚ)

/-- The value computed by the per-pixel task `func(ax, ay)`. -/
def pixelValue (fparams : fractalParams) (rparams : renderingParams) (ax ay : Nat) : Int :=
  let adjustedX := (ax : ℚ) * stepX rparams + rparams.viewing_window.Min.X
  let adjustedY := (ay : ℚ) * stepY rparams + rparams.viewing_window.Min.Y
  GetEscapeIterations adjustedX adjustedY fparams rparams

/-- One per-pixel task: compute the escape count and store it in its cell. -/
def pixelTask (fparams : fractalParams) (rparams : renderingParams)
    (tmp_img : List (List Int)) (p : Nat × Nat) : Option (List (List Int)) :=
  setCell tmp_img p.1 p.2 (pixelValue fparams rparams p.1 p.2)

/-- The per-pixel tasks executed in the order `tasks`, up to the barrier `wg.Wait()`. -/
def runTasks (fparams : fractalParams) (rparams : renderingParams)
    (tasks : List (Nat × Nat)) (tmp_img : List (List Int)) : Option (List (List Int)) :=
  tasks.foldlM (pixelTask fparams rparams) tmp_img

/-- The grid evaluation phase of `CreateFractalImage`: allocate `tmp_img` and
run one task per pixel, in launch order. -/
def escapeBuffer (fparams : fractalParams) (rparams : renderingParams) :
    Option (List (List Int)) := do
  let tmp_img ← makeBuffer rparams.display_quality.Dx rparams.display_quality.Dy
  runTasks fparams rparams
    (gridPixels rparams.display_quality.Dx rparams.display_quality.Dy) tmp_img

/-- Statement `hist[v-1]++`. -/
def bumpHist (hist : List Int) (v : Int) : Option (List Int) := do
  let c ← getAt hist (v - 1)
  setAt hist (v - 1) (c + 1)

/-- The histogram loop body `hist[tmp_img[x][y]-1]++`. -/
def histStep (tmp_img : List (List Int)) (hist : List Int) (p : Nat × Nat) :
    Option (List Int) := do
  let v ← getCell tmp_img p.1 p.2
  bumpHist hist v

/-- The histogram phase: `hist := make([]int, max_iterations)` filled by the
double loop over the grid. -/
def buildHist (tmp_img : List (List Int)) (Dx Dy max_iterations : Int) : Option (List Int) := do
  let hist ← makeSlice (0 : Int) max_iterations
  (gridPixels Dx Dy).foldlM (histStep tmp_img) hist

/-- Body of the normalisation loop: `running_total += float64(hist[v]);
bins[v] = running_total / total`. -/
def binsStep (hist : List Int) (total : ℚ) (st : List ℚ × ℚ) (v : Nat) : Option (List ℚ × ℚ) := do
  let h ← getAt hist v
  let running_total := st.2 + (h : ℚ)
  let bins ← setAt st.1 v (running_total / total)
  pure (bins, running_total)

/-- The normalisation phase: the cumulative distribution `bins`. -/
def computeBins (hist : List Int) (Dx Dy max_iterations : Int) : Option (List ℚ) := do
  let total : ℚ := ((Dx * Dy : Int) : ℚ)
  let bins ← makeSlice (0 : ℚ) max_iterations
  let st ← (List.range ((bins.length : Int) - 1).toNat).foldlM (binsStep hist total) (bins, 0)
  setAt st.1 ((st.1.length : Int) - 1) 1

/-- Body of the colouring loop: `color := colorSchemeFunc(bins[tmp_img[x][y]-1]);
im.SetRGBA(x, Dy-y-1, color)`. -/
def paintStep (rparams : renderingParams) (tmp_img : List (List Int)) (bins : List ℚ)
    (im : RGBAImage) (p : Nat × Nat) : Option RGBAImage := do
  let v ← getCell tmp_img p.1 p.2
  let val ← getAt bins (v - 1)
  let color := rparams.colorSchemeFunc val
  pure (im.SetRGBA p.1 (rparams.display_quality.Dy - p.2 - 1) color)

/-- The colouring phase: the double loop over the grid. -/
def paint (rparams : renderingParams) (tmp_img : List (List Int)) (bins : List ℚ)
    (im : RGBAImage) : Option RGBAImage :=
  (gridPixels rparams.display_quality.Dx rparams.display_quality.Dy).foldlM
    (paintStep rparams tmp_img bins) im

/-- Source function `CreateFractalImage`, up to the image handed to the PNG encoder.
The allocation of `hist` is placed with the loop that fills it; no statement
between the two has an effect other than a possible panic. -/
def CreateFractalImage (fparams : fractalParams) (rparams : renderingParams) :
    Option RGBAImage := do
  let im ← NewRGBA rparams.display_quality
  let tmp_img ← escapeBuffer fparams rparams
  let hist ← buildHist tmp_img rparams.display_quality.Dx rparams.display_quality.Dy
    rparams.max_iterations
  let bins ← computeBins hist rparams.display_quality.Dx rparams.display_quality.Dy
    rparams.max_iterations
  paint rparams tmp_img bins im

/-- The point at which the colouring loop writes the colour of grid pixel `p`. -/
def paintTarget (rparams : renderingParams) (p : Nat × Nat) : Int × Int :=
  ((p.1 : Int), rparams.display_quality.Dy - (p.2 : Int) - 1)

/-- A buffer of `Dx` columns of `Dy` cells. -/
def BufferShape (tmp_img : List (List Int)) (Dx Dy : Nat) : Prop :=
  tmp_img.length = Dx ∧ ∀ col ∈ tmp_img, col.length = Dy

instance BufferShape.instDecidable (tmp_img : List (List Int)) (Dx Dy : Nat) :
    Decidable (BufferShape tmp_img Dx Dy) := by
  unfold BufferShape; infer_instance

/-- All cells of the buffer, column after column. -/
def bufferCells (tmp_img : List (List Int)) : List Int := tmp_img.flatten

/-- The histogram and normalisation phases together: the cumulative
distribution computed from an escape buffer. -/
def cumulativeBins (tmp_img : List (List Int)) (Dx Dy max_iterations : Int) :
    Option (List ℚ) := do
  let hist ← buildHist tmp_img Dx Dy max_iterations
  computeBins hist Dx Dy max_iterations

/-- The number of buffer cells equal to `v`. -/
def cellsEqual (tmp_img : List (List Int)) (v : Int) : Nat :=
  (bufferCells tmp_img).count v

/-- The number of buffer cells with escape value at most `v`. -/
def cellsAtMost (tmp_img : List (List Int)) (v : Int) : Nat :=
  (bufferCells tmp_img).countP fun c => decide (c ≤ v)

/-- The sum `hist[0] + ... + hist[n-1]`: the value of `running_total` after
`n` passes of the normalisation loop. -/
def histPrefix (hist : List Int) (n : Nat) : Int :=
  ((List.range n).map fun v => hist.getD v 0).sum

/-! ## The escape loop as a counted state machine -/

/-- The state of the loop of `GetEscapeIterations`: the variables `a` and
`iterations`, and a ghost counter of the calls of the chaotic function. -/
structure LoopState where
  a : Cplx
  iterations : Int
  applications : Nat

/-- The loop of `GetEscapeIterations` run for at most `fuel` evaluations of its
guard: `none` when the fuel runs out before the guard fails, otherwise the
state at loop exit.  Each pass calls the chaotic function once. -/
def escapeLoopFuel (function : chaoticFunction) (b : Cplx) (escape_threshold : ℚ)
    (max_iterations : Int) : Nat → LoopState → Option LoopState
  | 0, _ => none
  | fuel + 1, s =>
    if cmplxAbsLt s.a escape_threshold ∧ s.iterations < max_iterations then
      escapeLoopFuel function b escape_threshold max_iterations fuel
        ⟨function s.a b, s.iterations + 1, s.applications + 1⟩
    else
      some s

/-! ## Task orders -/

/-- The grid evaluation phase with the per-pixel tasks executed in the order
`tasks` instead of launch order. -/
def escapeBufferIn (fparams : fractalParams) (rparams : renderingParams)
    (tasks : List (Nat × Nat)) : Option (List (List Int)) := do
  let tmp_img ← makeBuffer rparams.display_quality.Dx rparams.display_quality.Dy
  runTasks fparams rparams tasks tmp_img

/-- Function `CreateFractalImage` with the per-pixel tasks executed in the
order `tasks`. -/
def CreateFractalImageIn (fparams : fractalParams) (rparams : renderingParams)
    (tasks : List (Nat × Nat)) : Option RGBAImage := do
  let im ← NewRGBA rparams.display_quality
  let tmp_img ← escapeBufferIn fparams rparams tasks
  let hist ← buildHist tmp_img rparams.display_quality.Dx rparams.display_quality.Dy
    rparams.max_iterations
  let bins ← computeBins hist rparams.display_quality.Dx rparams.display_quality.Dy
    rparams.max_iterations
  paint rparams tmp_img bins im

/-! ## The cumulative distribution as the specification words it -/

/-- One step of the recurrence of the specification:
`bins[v] = bins[v-1] + hist[v] / total`. -/
def specBinsStep (hist : List Int) (total : ℚ) (bins : List ℚ) (v : Nat) : Option (List ℚ) := do
  let prev ← getAt bins ((v : Int) - 1)
  let h ← getAt hist (v : Int)
  setAt bins (v : Int) (prev + (h : ℚ) / total)

/-- The cumulative distribution following the words of the specification:
`bins[0] = hist[0] / total`; for `v` in `[1, max_iterations-1)`,
`bins[v] = bins[v-1] + hist[v] / total`; the final bin forced to `1.0`. -/
def specBins (hist : List Int) (total : ℚ) (max_iterations : Int) : Option (List ℚ) := do
  let bins ← makeSlice (0 : ℚ) max_iterations
  let h0 ← getAt hist 0
  let bins ← setAt bins 0 ((h0 : ℚ) / total)
  let bins ← (List.range' 1 ((max_iterations - 1).toNat - 1)).foldlM
    (specBinsStep hist total) bins
  setAt bins (max_iterations - 1) 1

/-! ## Pixel coordinates -/

/-- The coordinate `adjustedX` of the per-pixel task:
`float64(ax)*dx + viewing_window.Min.X`. -/
def adjustedX (rparams : renderingParams) (ax : Nat) : ℚ :=
  (ax : ℚ) * stepX rparams + rparams.viewing_window.Min.X

/-- The coordinate `adjustedY` of the per-pixel task:
`float64(ay)*dy + viewing_window.Min.Y`. -/
def adjustedY (rparams : renderingParams) (ay : Nat) : ℚ :=
  (ay : ℚ) * stepY rparams + rparams.viewing_window.Min.Y

/-! ## First generation (`src/src/fgen1.go`) -/

/-- The `for` loop of `Mandelbrot` in `fgen1.go`, from the state
`(x, y, iteration)`: while `x*x + y*y < 2*2 && iteration < maxIteration`, set
`xtemp := x*x - y*y + x0; y = 2*x*y + y0; x = xtemp` and increment `iteration`. -/
def mandelbrotLoop (x0 y0 : ℚ) (maxIteration : Int) (x y : ℚ) (iteration : Int) : Int :=
  if x * x + y * y < 2 * 2 ∧ iteration < maxIteration then
    let xtemp := x * x - y * y + x0
    mandelbrotLoop x0 y0 maxIteration xtemp (2 * x * y + y0) (iteration + 1)
  else
    iteration
termination_by (maxIteration - iteration).toNat
decreasing_by
  rename_i h
  have := h.2
  omega

/-- Source function `Mandelbrot` of `fgen1.go`. -/
def Mandelbrot (x y : ℚ) (maxIteration : Int) : Int :=
  mandelbrotLoop x y maxIteration 0 0 0

/-! ## float64 rounding of the library calls

The definitions above compute in exact arithmetic.  The definitions of this
section refine the two places where the program calls floating-point library
functions, `cmplx.Abs` and `math.Pow(val, .5)*255`, by IEEE 754 binary64
rounding (round to nearest, ties to even, 53-bit significand).  A `float64`
value is the rational number it denotes; infinities, NaN, overflow and
subnormal numbers are not modelled. -/

/-- Rounding of a rational to the nearest integer, ties to the even one. -/
def roundHalfEven (q : ℚ) : ℤ :=
  if q - ⌊q⌋ < 1 / 2 then ⌊q⌋
  else if 1 / 2 < q - ⌊q⌋ then ⌊q⌋ + 1
  else if ⌊q⌋ % 2 = 0 then ⌊q⌋ else ⌊q⌋ + 1

/-- The `float64` nearest to `q`: with `e = ⌊log₂ |q|⌋`, the multiple of
`2^(e-52)` nearest to `q`, ties to even.  It is the result of a `float64`
addition, multiplication or division whose exact result is `q`. -/
def roundFloat64 (q : ℚ) : ℚ :=
  if q = 0 then 0
  else (roundHalfEven (q / 2 ^ (Int.log 2 |q| - 52)) : ℚ) * 2 ^ (Int.log 2 |q| - 52)

/-- Library function `math.Sqrt` on a non-negative `float64`: the `float64`
nearest to `√q`.  With `k = ⌊log₂ q / 2⌋ - 52` and `z = q / 4^k`, the integer
part of `√q / 2^k` is the integer square root `n` of `⌊z⌋`, and `√q / 2^k` is
below, above or at `n + 1/2` as `z` is below, above or at `(n + 1/2)²`. -/
def sqrtFloat64 (q : ℚ) : ℚ :=
  if q ≤ 0 then 0
  else
    let k : ℤ := Int.log 2 q / 2 - 52
    let z : ℚ := q / 2 ^ (2 * k)
    let n : ℕ := Nat.sqrt ⌊z⌋.toNat
    let mid : ℚ := ((n : ℚ) + 1 / 2) ^ 2
    if z < mid then (n : ℚ) * 2 ^ k
    else if mid < z then ((n : ℚ) + 1) * 2 ^ k
    else if n % 2 = 0 then (n : ℚ) * 2 ^ k else ((n : ℚ) + 1) * 2 ^ k

/-- Library function `math.Hypot` on finite arguments: with `p` the larger and
`q` the smaller of the absolute values, `0` when `p` is `0`, otherwise
`p * Sqrt(1 + (q/p)*(q/p))`, every operation rounded to `float64`. -/
def hypotFloat64 (p q : ℚ) : ℚ :=
  let p1 := max |p| |q|
  let q1 := min |p| |q|
  if p1 = 0 then 0
  else
    let q2 := roundFloat64 (q1 / p1)
    roundFloat64 (p1 * sqrtFloat64 (roundFloat64 (1 + roundFloat64 (q2 * q2))))

/-- Library function `cmplx.Abs`: `math.Hypot(real(x), imag(x))`. -/
def cmplxAbsFloat64 (a : Cplx) : ℚ := hypotFloat64 a.re a.im

/-- The test `cmplx.Abs(a) < t` with the exact magnitude. -/
def absLtExact (a : Cplx) (t : ℚ) : Bool := decide (cmplxAbsLt a t)

/-- The test `cmplx.Abs(a) < t` with the `float64` magnitude. -/
def absLtFloat64 (a : Cplx) (t : ℚ) : Bool := decide (cmplxAbsFloat64 a < t)

/-- The `for` loop of `GetEscapeIterations` with the evaluation `absLt` of the
test `cmplx.Abs(a) < escape_threshold` taken as a parameter. -/
def escapeLoopOn (absLt : Cplx → ℚ → Bool) (function : chaoticFunction) (b : Cplx)
    (escape_threshold : ℚ) (max_iterations : Int) (a : Cplx) (iterations : Int) : Int :=
  if absLt a escape_threshold = true ∧ iterations < max_iterations then
    escapeLoopOn absLt function b escape_threshold max_iterations (function a b)
      (iterations + 1)
  else
    iterations
termination_by (max_iterations - iterations).toNat
decreasing_by
  rename_i h
  have := h.2
  omega

/-- Source function `GetEscapeIterations` with the evaluation `absLt` of the
test `cmplx.Abs(a) < escape_threshold` taken as a parameter. -/
def GetEscapeIterationsOn (absLt : Cplx → ℚ → Bool) (x y : ℚ) (fparams : fractalParams)
    (rparams : renderingParams) : Int :=
  escapeLoopOn absLt fparams.function fparams.start rparams.escape_threshold
    rparams.max_iterations (complex x y) 1

/-- The integer part of the `float64` value `math.Pow(val, .5)*255`:
`math.Pow(val, .5)` is `math.Sqrt(val)`, and the product is rounded. -/
def sqrtTimes255Float64 (val : ℚ) : Nat := ⌊roundFloat64 (sqrtFloat64 val * 255)⌋.toNat

/-- Source function `BlackAndGreen` with `float64` rounding of
`math.Pow(val, .5)*255`. -/
def BlackAndGreenFloat64 (val : ℚ) : RGBA :=
  if val = 1 then
    ⟨0, 0, 0, 255⟩
  else
    let r := toUint8 0
    let g := uint8Sub 255 (toUint8 (sqrtTimes255Float64 val))
    let b := uint8Sub (255 / 2) (toUint8 (sqrtTimes255Float64 val) / 2)
    let a := toUint8 255
    ⟨r, g, b, a⟩

/-- The `float64` value `40578065 / 2^25` (about `1.2093`). -/
def roundingX : ℚ := 40578065 / 2 ^ 25

/-- The `float64` value `7174085423348061 / 2^52` (about `1.5930`). -/
def roundingY : ℚ := 7174085423348061 / 2 ^ 52

/-- The `float64` value `0x1.0203040506070p-16`, just below `1/65025`. -/
def roundingVal : ℚ := 283686952306183 / 2 ^ 64

/-! ## A small configuration -/

/-- The Mandelbrot map with start constant `0+0i`. -/
def demoFractal : fractalParams := ⟨Man, ⟨0, 0⟩⟩

/-- A rendering configuration: at most 5 iterations, threshold 2, the window
`[-2, 2] × [-2, 2]` on a grid of 2 by 3 pixels anchored at the origin. -/
def demoRendering : renderingParams :=
  ⟨5, 2, ⟨⟨-2, -2⟩, ⟨2, 2⟩⟩, ⟨⟨0, 0⟩, ⟨2, 3⟩⟩, BlackAndGreen⟩

/-- The configuration `demoRendering` with the display rectangle from
`(10, 10)` to `(20, 20)`, whose `Min` is not the origin. -/
def offsetRendering : renderingParams :=
  ⟨5, 2, ⟨⟨-2, -2⟩, ⟨2, 2⟩⟩, ⟨⟨10, 10⟩, ⟨20, 20⟩⟩, BlackAndGreen⟩

/-! ## Lemmas on the escape loop -/

theorem escapeLoop_continue (f : chaoticFunction) (b : Cplx) (t : ℚ) (m : Int) (a : Cplx)
    (it : Int) (ha : cmplxAbsLt a t) (hit : it < m) :
    escapeLoop f b t m a it = escapeLoop f b t m (f a b) (it + 1) := by
  rw [escapeLoop, if_pos ⟨ha, hit⟩]

theorem escapeLoop_exit (f : chaoticFunction) (b : Cplx) (t : ℚ) (m : Int) (a : Cplx)
    (it : Int) (h : ¬ (cmplxAbsLt a t ∧ it < m)) :
    escapeLoop f b t m a it = it := by
  rw [escapeLoop, if_neg h]

theorem escapeLoop_ge (f : chaoticFunction) (b : Cplx) (t : ℚ) (m : Int) :
    ∀ (n : Nat) (a : Cplx) (it : Int), (m - it).toNat = n → it ≤ escapeLoop f b t m a it := by
  intro n
  induction n with
  | zero =>
    intro a it hn
    rw [escapeLoop_exit f b t m a it (by rintro ⟨_, h⟩; omega)]
  | succ n ih =>
    intro a it hn
    by_cases h : cmplxAbsLt a t ∧ it < m
    · rw [escapeLoop_continue f b t m a it h.1 h.2]
      have := ih (f a b) (it + 1) (by omega)
      omega
    · rw [escapeLoop_exit f b t m a it h]

theorem escapeLoop_le (f : chaoticFunction) (b : Cplx) (t : ℚ) (m : Int) :
    ∀ (n : Nat) (a : Cplx) (it : Int), (m - it).toNat = n → it ≤ m →
      escapeLoop f b t m a it ≤ m := by
  intro n
  induction n with
  | zero =>
    intro a it hn hle
    rw [escapeLoop_exit f b t m a it (by rintro ⟨_, h⟩; omega)]
    exact hle
  | succ n ih =>
    intro a it hn hle
    by_cases h : cmplxAbsLt a t ∧ it < m
    · rw [escapeLoop_continue f b t m a it h.1 h.2]
      exact ih (f a b) (it + 1) (by omega) (by omega)
    · rw [escapeLoop_exit f b t m a it h]
      exact hle

/-- From a state whose iterate first leaves the disc after `k` further
applications, the loop returns `min max_iterations (iterations + k)`. -/
theorem escapeLoop_first_escape (f : chaoticFunction) (b : Cplx) (t : ℚ) (m : Int) :
    ∀ (k : Nat) (a : Cplx) (it : Int), it ≤ m →
      (∀ j, j < k → cmplxAbsLt ((fun z => f z b)^[j] a) t) →
      ¬ cmplxAbsLt ((fun z => f z b)^[k] a) t →
      escapeLoop f b t m a it = min m (it + k) := by
  intro k
  induction k with
  | zero =>
    intro a it hle _ hk
    rw [escapeLoop_exit f b t m a it (fun h => hk h.1)]
    simp [hle]
  | succ k ih =>
    intro a it hle hlt hk
    have h0 : cmplxAbsLt a t := hlt 0 (Nat.succ_pos k)
    by_cases hit : it < m
    · rw [escapeLoop_continue f b t m a it h0 hit]
      rw [ih (f a b) (it + 1) (by omega)
        (fun j hj => by simpa [Function.iterate_succ_apply] using hlt (j + 1) (by omega))
        (by simpa [Function.iterate_succ_apply] using hk)]
      push_cast
      congr 1
      ring
    · rw [escapeLoop_exit f b t m a it (fun h => hit h.2)]
      have : it = m := by omega
      subst this
      rw [min_eq_left]
      push_cast
      omega

/-- From a state whose iterates never leave the disc, the loop runs to the cap. -/
theorem escapeLoop_never_escape (f : chaoticFunction) (b : Cplx) (t : ℚ) (m : Int) :
    ∀ (n : Nat) (a : Cplx) (it : Int), (m - it).toNat = n → it ≤ m →
      (∀ j, cmplxAbsLt ((fun z => f z b)^[j] a) t) →
      escapeLoop f b t m a it = m := by
  intro n
  induction n with
  | zero =>
    intro a it hn hle _
    rw [escapeLoop_exit f b t m a it (by rintro ⟨_, h⟩; omega)]
    omega
  | succ n ih =>
    intro a it hn hle hall
    have h0 : cmplxAbsLt a t := hall 0
    rw [escapeLoop_continue f b t m a it h0 (by omega)]
    exact ih (f a b) (it + 1) (by omega) (by omega)
      (fun j => by simpa [Function.iterate_succ_apply] using hall (j + 1))

theorem iterate_Man_origin (j : Nat) :
    (fun z => Man z ⟨0, 0⟩)^[j] (complex 0 0) = complex 0 0 := by
  induction j with
  | zero => rfl
  | succ j ih =>
    rw [Function.iterate_succ_apply', ih]
    simp [Man, Cplx.mul, Cplx.add, complex]

theorem iterateAt_Man_origin (j : Nat) :
    iterateAt demoFractal 0 0 j = complex 0 0 :=
  iterate_Man_origin j

theorem pixelValue_range (fparams : fractalParams) (rparams : renderingParams) (ax ay : Nat)
    (hmax : 1 ≤ rparams.max_iterations) :
    1 ≤ pixelValue fparams rparams ax ay ∧
      pixelValue fparams rparams ax ay ≤ rparams.max_iterations :=
  ⟨escapeLoop_ge _ _ _ _ _ _ _ rfl, escapeLoop_le _ _ _ _ _ _ _ rfl hmax⟩

/-- With more fuel than the distance to the iteration cap, the counted loop
exits; at exit `iterations` is the value of `escapeLoop` and the chaotic
function has been called once per increment. -/
theorem escapeLoopFuel_spec (f : chaoticFunction) (b : Cplx) (t : ℚ) (m : Int) :
    ∀ (n fuel : Nat) (s : LoopState), (m - s.iterations).toNat = n → n < fuel →
      ∃ s1, escapeLoopFuel f b t m fuel s = some s1 ∧
        s1.iterations = escapeLoop f b t m s.a s.iterations ∧
        (s1.applications : Int) = (s.applications : Int) + (s1.iterations - s.iterations) ∧
        ¬ (cmplxAbsLt s1.a t ∧ s1.iterations < m) := by
  intro n
  induction n with
  | zero =>
    intro fuel s hn hfuel
    obtain ⟨fuel1, rfl⟩ : ∃ k, fuel = k + 1 := ⟨fuel - 1, by omega⟩
    have hg : ¬ (cmplxAbsLt s.a t ∧ s.iterations < m) := by rintro ⟨_, h⟩; omega
    refine ⟨s, ?_, ?_, by omega, hg⟩
    · simp only [escapeLoopFuel, if_neg hg]
    · rw [escapeLoop_exit f b t m s.a s.iterations hg]
  | succ n ih =>
    intro fuel s hn hfuel
    obtain ⟨fuel1, rfl⟩ : ∃ k, fuel = k + 1 := ⟨fuel - 1, by omega⟩
    by_cases hg : cmplxAbsLt s.a t ∧ s.iterations < m
    · obtain ⟨s1, hrun, hit, happ, hexit⟩ :=
        ih fuel1 ⟨f s.a b, s.iterations + 1, s.applications + 1⟩
          (by show (m - (s.iterations + 1)).toNat = n; omega) (by omega)
      refine ⟨s1, ?_, ?_, ?_, hexit⟩
      · simp only [escapeLoopFuel, if_pos hg]
        exact hrun
      · rw [escapeLoop_continue f b t m s.a s.iterations hg.1 hg.2]
        exact hit
      · simp only at happ
        push_cast at happ
        omega
    · refine ⟨s, ?_, ?_, by omega, hg⟩
      · simp only [escapeLoopFuel, if_neg hg]
      · rw [escapeLoop_exit f b t m s.a s.iterations hg]

theorem escapeLoop_of_cap_le (f : chaoticFunction) (b : Cplx) (t : ℚ) (m : Int) (a : Cplx)
    (it : Int) (h : m ≤ it) : escapeLoop f b t m a it = it :=
  escapeLoop_exit f b t m a it (by rintro ⟨_, h1⟩; omega)

/-! ## Lemmas on the grid and the escape buffer -/

theorem mem_gridPixels (Dx Dy : Int) (p : Nat × Nat) :
    p ∈ gridPixels Dx Dy ↔ p.1 < Dx.toNat ∧ p.2 < Dy.toNat := by
  obtain ⟨x, y⟩ := p
  simp only [gridPixels, List.mem_flatMap, List.mem_map, List.mem_range, Prod.mk.injEq]
  constructor
  · rintro ⟨a, ha, b, hb, rfl, rfl⟩
    exact ⟨ha, hb⟩
  · rintro ⟨hx, hy⟩
    exact ⟨x, hx, y, hy, rfl, rfl⟩

theorem mapM_replicate_const {α β : Type} (n : Nat) (a : α) (c : β) :
    (List.replicate n a).mapM (fun _ => (some c : Option β)) = some (List.replicate n c) := by
  induction n with
  | zero => rfl
  | succ n ih =>
    rw [List.replicate_succ, List.mapM_cons, ih]
    rfl

theorem makeBuffer_eq (Dx Dy : Int) (hx : 0 ≤ Dx) (hy : 0 ≤ Dy) :
    makeBuffer Dx Dy = some (List.replicate Dx.toNat (List.replicate Dy.toNat 0)) := by
  have h1 : ¬ Dx < 0 := by omega
  have h2 : ¬ Dy < 0 := by omega
  simp only [makeBuffer, makeSlice, if_neg h1, if_neg h2]
  exact mapM_replicate_const _ _ _

theorem bufferShape_replicate (n m : Nat) :
    BufferShape (List.replicate n (List.replicate m 0)) n m := by
  refine ⟨List.length_replicate _ _, fun col hcol => ?_⟩
  rw [List.eq_of_mem_replicate hcol, List.length_replicate]

theorem getCell_eq_some_of_shape (buf : List (List Int)) (Dx Dy x y : Nat)
    (hs : BufferShape buf Dx Dy) (hx : x < Dx) (hy : y < Dy) :
    ∃ v, getCell buf x y = some v := by
  have hxl : x < buf.length := by rw [hs.1]; exact hx
  have hcol : (buf[x]).length = Dy := hs.2 _ (List.getElem_mem hxl)
  have hyl : y < (buf[x]).length := by rw [hcol]; exact hy
  refine ⟨(buf[x])[y], ?_⟩
  simp [getCell, List.getElem?_eq_getElem hxl, List.getElem?_eq_getElem hyl]

/-- A write into a cell inside the buffer succeeds, keeps the shape, and
changes that cell only. -/
theorem setCell_spec (buf : List (List Int)) (Dx Dy ax ay : Nat) (v : Int)
    (hs : BufferShape buf Dx Dy) (hx : ax < Dx) (hy : ay < Dy) :
    ∃ buf1, setCell buf ax ay v = some buf1 ∧ BufferShape buf1 Dx Dy ∧
      ∀ x y, getCell buf1 x y = if x = ax ∧ y = ay then some v else getCell buf x y := by
  have hxl : ax < buf.length := by rw [hs.1]; exact hx
  have hcol : (buf[ax]).length = Dy := hs.2 _ (List.getElem_mem hxl)
  have hyl : ay < (buf[ax]).length := by rw [hcol]; exact hy
  refine ⟨buf.set ax ((buf[ax]).set ay v), ?_, ⟨?_, ?_⟩, ?_⟩
  · simp [setCell, List.getElem?_eq_getElem hxl, hyl]
  · rw [List.length_set]; exact hs.1
  · intro col hmem
    rcases List.mem_or_eq_of_mem_set hmem with h | h
    · exact hs.2 col h
    · rw [h, List.length_set]; exact hcol
  · intro x y
    by_cases hxa : x = ax
    · subst hxa
      by_cases hya : y = ay
      · subst hya
        simp [getCell, List.getElem?_set_self hxl, List.getElem?_set_self hyl]
      · have hne : ay ≠ y := fun h => hya h.symm
        simp [getCell, List.getElem?_set_self hxl, List.getElem?_eq_getElem hxl,
          List.getElem?_set_ne hne, hya]
    · have hne : ax ≠ x := fun h => hxa h.symm
      simp [getCell, List.getElem?_set_ne hne, hxa]

/-- The tasks of any list of in-range pixels, run in the order of the list,
all succeed, keep the shape, and leave in every cell named by the list the
value of its task and in every other cell what it held. -/
theorem runTasks_spec (fparams : fractalParams) (rparams : renderingParams) (Dx Dy : Nat) :
    ∀ (tasks : List (Nat × Nat)) (buf : List (List Int)), BufferShape buf Dx Dy →
      (∀ p ∈ tasks, p.1 < Dx ∧ p.2 < Dy) →
      ∃ buf1, runTasks fparams rparams tasks buf = some buf1 ∧ BufferShape buf1 Dx Dy ∧
        ∀ x y, getCell buf1 x y =
          if (x, y) ∈ tasks then some (pixelValue fparams rparams x y) else getCell buf x y := by
  intro tasks
  induction tasks with
  | nil =>
    intro buf hs _
    exact ⟨buf, rfl, hs, fun x y => by simp⟩
  | cons p rest ih =>
    intro buf hs hin
    obtain ⟨hpx, hpy⟩ := hin p (List.mem_cons_self _ _)
    obtain ⟨buf1, h1, hs1, hget1⟩ :=
      setCell_spec buf Dx Dy p.1 p.2 (pixelValue fparams rparams p.1 p.2) hs hpx hpy
    obtain ⟨buf2, h2, hs2, hget2⟩ :=
      ih buf1 hs1 (fun q hq => hin q (List.mem_cons_of_mem _ hq))
    refine ⟨buf2, ?_, hs2, ?_⟩
    · have hstep : pixelTask fparams rparams buf p = some buf1 := h1
      simp only [runTasks, List.foldlM_cons, hstep]
      exact h2
    · intro x y
      rw [hget2 x y, hget1 x y]
      by_cases hmem : (x, y) ∈ rest
      · simp [hmem]
      · by_cases hp : (x, y) = p
        · subst hp
          simp
        · have hp2 : ¬ (x = p.1 ∧ y = p.2) := fun h => hp (Prod.ext h.1 h.2)
          simp [hmem, hp, hp2]

/-- The grid evaluation phase on a well-formed display rectangle. -/
theorem escapeBuffer_spec (fparams : fractalParams) (rparams : renderingParams)
    (hx : 0 ≤ rparams.display_quality.Dx) (hy : 0 ≤ rparams.display_quality.Dy) :
    ∃ buf, escapeBuffer fparams rparams = some buf ∧
      BufferShape buf rparams.display_quality.Dx.toNat rparams.display_quality.Dy.toNat ∧
      ∀ x y, x < rparams.display_quality.Dx.toNat → y < rparams.display_quality.Dy.toNat →
        getCell buf x y = some (pixelValue fparams rparams x y) := by
  obtain ⟨buf, h, hs, hget⟩ := runTasks_spec fparams rparams
    rparams.display_quality.Dx.toNat rparams.display_quality.Dy.toNat
    (gridPixels rparams.display_quality.Dx rparams.display_quality.Dy)
    (List.replicate rparams.display_quality.Dx.toNat
      (List.replicate rparams.display_quality.Dy.toNat 0))
    (bufferShape_replicate _ _)
    (fun p hp => (mem_gridPixels _ _ p).1 hp)
  refine ⟨buf, ?_, hs, ?_⟩
  · simp only [escapeBuffer, makeBuffer_eq _ _ hx hy]
    exact h
  · intro x y hxl hyl
    rw [hget x y, if_pos ((mem_gridPixels _ _ (x, y)).2 ⟨hxl, hyl⟩)]

/-! ## Lemmas on the histogram -/

theorem sum_set_add_one (l : List Int) :
    ∀ i : Nat, i < l.length → (l.set i (l.getD i 0 + 1)).sum = l.sum + 1 := by
  induction l with
  | nil => intro i hi; simp at hi
  | cons a t ih =>
    intro i hi
    cases i with
    | zero => simp; ring
    | succ i =>
      have hi1 : i < t.length := by simpa using hi
      simp only [List.set_cons_succ, List.sum_cons, List.getD_cons_succ]
      rw [ih i hi1]
      ring

theorem getD_set_add_one (l : List Int) (i j : Nat) (hi : i < l.length) :
    (l.set i (l.getD i 0 + 1)).getD j 0 = l.getD j 0 + if j = i then 1 else 0 := by
  rw [List.getD_eq_getElem?_getD, List.getD_eq_getElem?_getD, List.getD_eq_getElem?_getD]
  by_cases hji : j = i
  · subst hji
    simp [List.getElem?_set_self hi]
  · have hne : i ≠ j := fun h => hji h.symm
    simp [List.getElem?_set_ne hne, hji]

/-- Statement `hist[v-1]++` with `v` in `[1, len(hist)]` increments entry `v-1`. -/
theorem bumpHist_eq (hist : List Int) (v : Int) (h1 : 1 ≤ v) (h2 : v ≤ hist.length) :
    bumpHist hist v =
      some (hist.set (v - 1).toNat (hist.getD (v - 1).toNat 0 + 1)) := by
  have hi : (v - 1).toNat < hist.length := by omega
  have c1 : (0 : Int) ≤ v - 1 := by omega
  have c2 : (0 : Int) ≤ v - 1 ∧ v - 1 < hist.length := ⟨c1, by omega⟩
  simp only [bumpHist, getAt, setAt, if_pos c1, if_pos c2, List.getElem?_eq_getElem hi,
    List.getD_eq_getElem _ _ hi]
  rfl

/-- The histogram loop over a list of escape values in `[1, len(hist)]`. -/
theorem foldlM_bumpHist_spec :
    ∀ (vs : List Int) (hist : List Int), (∀ v ∈ vs, 1 ≤ v ∧ v ≤ hist.length) →
      ∃ hist1, vs.foldlM bumpHist hist = some hist1 ∧ hist1.length = hist.length ∧
        hist1.sum = hist.sum + vs.length ∧
        ∀ i : Nat, hist1.getD i 0 = hist.getD i 0 + vs.count ((i : Int) + 1) := by
  intro vs
  induction vs with
  | nil =>
    intro hist _
    exact ⟨hist, rfl, rfl, by simp, fun i => by simp⟩
  | cons v rest ih =>
    intro hist hin
    obtain ⟨h1, h2⟩ := hin v (List.mem_cons_self _ _)
    have hi : (v - 1).toNat < hist.length := by omega
    have hlen : (hist.set (v - 1).toNat (hist.getD (v - 1).toNat 0 + 1)).length = hist.length :=
      List.length_set _ _ _
    obtain ⟨hist1, hf, hl, hsum, hget⟩ :=
      ih (hist.set (v - 1).toNat (hist.getD (v - 1).toNat 0 + 1))
        (fun w hw => by rw [hlen]; exact hin w (List.mem_cons_of_mem _ hw))
    refine ⟨hist1, ?_, by rw [hl, hlen], ?_, ?_⟩
    · simp only [List.foldlM_cons, bumpHist_eq hist v h1 h2]
      exact hf
    · rw [hsum, sum_set_add_one hist _ hi]
      simp only [List.length_cons]
      push_cast
      ring
    · intro i
      rw [hget i, getD_set_add_one hist _ i hi, List.count_cons]
      by_cases hiv : i = (v - 1).toNat
      · have hv : v = (i : Int) + 1 := by omega
        have hb : (v == (i : Int) + 1) = true := by rw [beq_iff_eq]; exact hv
        rw [if_pos hiv, if_pos hb]
        push_cast
        ring
      · have hv : ¬ v = (i : Int) + 1 := by omega
        have hb : ¬ (v == (i : Int) + 1) = true := by rw [beq_iff_eq]; exact hv
        rw [if_neg hiv, if_neg hb]
        push_cast
        ring

theorem foldlM_histStep_eq (buf : List (List Int)) :
    ∀ (ps : List (Nat × Nat)) (vs : List Int) (hist : List Int),
      ps.map (fun p => getCell buf p.1 p.2) = vs.map some →
      ps.foldlM (histStep buf) hist = vs.foldlM bumpHist hist := by
  intro ps
  induction ps with
  | nil =>
    intro vs hist h
    cases vs with
    | nil => rfl
    | cons v rest => simp at h
  | cons p rest ih =>
    intro vs hist h
    cases vs with
    | nil => simp at h
    | cons v vrest =>
      simp only [List.map_cons, List.cons.injEq] at h
      obtain ⟨hp, hrest⟩ := h
      simp only [List.foldlM_cons, histStep, hp]
      cases hb : bumpHist hist v with
      | none => simp [hb]
      | some hist1 =>
        simp only [hb, Option.some_bind, Option.bind_eq_bind]
        exact ih vrest hist1 hrest

theorem map_range_getElem? (col : List Int) :
    (List.range col.length).map (fun y => col[y]?) = col.map some := by
  apply List.ext_getElem?
  intro n
  by_cases hn : n < col.length
  · simp [List.getElem?_range hn, List.getElem?_eq_getElem hn, hn]
  · have hn1 : col.length ≤ n := by omega
    simp [List.getElem?_eq_none hn1, hn1]

theorem map_getCell_prefix (buf : List (List Int)) (Dy : Nat)
    (hs : ∀ col ∈ buf, col.length = Dy) :
    ∀ n : Nat, n ≤ buf.length →
      (List.range n).flatMap (fun x => (List.range Dy).map fun y => getCell buf x y) =
        ((buf.take n).flatten).map some := by
  intro n
  induction n with
  | zero => intro _; simp
  | succ n ih =>
    intro hn
    have hn1 : n < buf.length := by omega
    have hcol : (buf[n]).length = Dy := hs _ (List.getElem_mem hn1)
    rw [List.range_succ, List.flatMap_append, ih (by omega), List.take_succ,
      List.flatten_append, List.map_append, List.getElem?_eq_getElem hn1]
    congr 1
    simp only [List.flatMap_singleton, Option.toList_some, List.flatten_cons, List.flatten_nil,
      List.append_nil]
    rw [← hcol, ← map_range_getElem? (buf[n])]
    apply List.map_congr_left
    intro y _
    simp [getCell, List.getElem?_eq_getElem hn1]

/-- Reading the cells in loop order yields the cells of the buffer. -/
theorem map_getCell_gridPixels (buf : List (List Int)) (Dx Dy : Nat)
    (hs : BufferShape buf Dx Dy) :
    (gridPixels Dx Dy).map (fun p => getCell buf p.1 p.2) = (bufferCells buf).map some := by
  have h := map_getCell_prefix buf Dy hs.2 Dx (by rw [hs.1])
  rw [← hs.1, List.take_length] at h
  simp only [gridPixels, List.map_flatMap, List.map_map, Int.toNat_ofNat, bufferCells]
  rw [← h, hs.1]
  rfl

theorem getD_replicate_zero (n i : Nat) : (List.replicate n (0 : Int)).getD i 0 = 0 := by
  rw [List.getD_eq_getElem?_getD, List.getElem?_replicate]
  split <;> rfl

/-- The histogram phase on a buffer of shape `Dx × Dy` whose cells all lie in
`[1, max_iterations]`. -/
theorem buildHist_spec (buf : List (List Int)) (Dx Dy : Nat) (max_iterations : Int)
    (hs : BufferShape buf Dx Dy)
    (hcells : ∀ c ∈ bufferCells buf, 1 ≤ c ∧ c ≤ max_iterations)
    (hmax : 0 ≤ max_iterations) :
    ∃ hist, buildHist buf Dx Dy max_iterations = some hist ∧
      hist.length = max_iterations.toNat ∧
      hist.sum = ((bufferCells buf).length : Int) ∧
      ∀ i : Nat, hist.getD i 0 = cellsEqual buf ((i : Int) + 1) := by
  obtain ⟨hist, hf, hl, hsum, hget⟩ := foldlM_bumpHist_spec (bufferCells buf)
    (List.replicate max_iterations.toNat 0)
    (fun c hc => by
      rw [List.length_replicate]
      have := hcells c hc
      omega)
  refine ⟨hist, ?_, by rw [hl, List.length_replicate], ?_, ?_⟩
  · have hneg : ¬ max_iterations < 0 := by omega
    simp only [buildHist, makeSlice, if_neg hneg]
    rw [← hf]
    exact foldlM_histStep_eq buf _ _ _ (map_getCell_gridPixels buf Dx Dy hs)
  · rw [hsum]
    simp
  · intro i
    rw [hget i, getD_replicate_zero]
    simp [cellsEqual]

theorem length_bufferCells (buf : List (List Int)) (Dx Dy : Nat) (hs : BufferShape buf Dx Dy) :
    (bufferCells buf).length = Dx * Dy := by
  have hmap : buf.map List.length = List.replicate buf.length Dy := by
    apply List.eq_replicate_iff.2
    refine ⟨List.length_map _ _, fun n hn => ?_⟩
    obtain ⟨col, hcol, rfl⟩ := List.mem_map.1 hn
    exact hs.2 col hcol
  rw [bufferCells, List.length_flatten, hmap, List.sum_replicate, hs.1]
  simp

theorem mem_bufferCells_of_getCell (buf : List (List Int)) (x y : Nat) (v : Int)
    (h : getCell buf x y = some v) : v ∈ bufferCells buf := by
  simp only [getCell, Option.bind_eq_bind, Option.bind_eq_some] at h
  obtain ⟨col, hcol, hv⟩ := h
  exact List.mem_flatten.2 ⟨col, List.mem_iff_getElem?.2 ⟨x, hcol⟩, List.mem_iff_getElem?.2 ⟨y, hv⟩⟩

theorem getCell_of_mem_bufferCells (buf : List (List Int)) (Dx Dy : Nat)
    (hs : BufferShape buf Dx Dy) (v : Int) (h : v ∈ bufferCells buf) :
    ∃ x y, x < Dx ∧ y < Dy ∧ getCell buf x y = some v := by
  obtain ⟨col, hcol, hv⟩ := List.mem_flatten.1 h
  have hlen : col.length = Dy := hs.2 col hcol
  obtain ⟨x, hx, rfl⟩ := List.getElem_of_mem hcol
  obtain ⟨y, hy, rfl⟩ := List.getElem_of_mem hv
  refine ⟨x, y, by rw [← hs.1]; exact hx, by rw [← hlen]; exact hy, ?_⟩
  simp [getCell, List.getElem?_eq_getElem hx, List.getElem?_eq_getElem hy]

theorem getAt_of_getD {α : Type} (l : List α) (i : Nat) (d : α) (hi : i < l.length) :
    getAt l (i : Int) = some (l.getD i d) := by
  have h0 : (0 : Int) ≤ (i : Int) := by omega
  simp [getAt, h0, List.getElem?_eq_getElem hi, List.getD_eq_getElem _ _ hi]

/-- Every cell of the buffer produced by the grid evaluation phase lies in
`[1, max_iterations]`. -/
theorem escapeBuffer_cells_range (fparams : fractalParams) (rparams : renderingParams)
    (hmax : 1 ≤ rparams.max_iterations)
    (hx : 0 ≤ rparams.display_quality.Dx) (hy : 0 ≤ rparams.display_quality.Dy) :
    ∃ buf, escapeBuffer fparams rparams = some buf ∧
      BufferShape buf rparams.display_quality.Dx.toNat rparams.display_quality.Dy.toNat ∧
      (∀ x y, x < rparams.display_quality.Dx.toNat → y < rparams.display_quality.Dy.toNat →
        getCell buf x y = some (pixelValue fparams rparams x y)) ∧
      ∀ c ∈ bufferCells buf, 1 ≤ c ∧ c ≤ rparams.max_iterations := by
  obtain ⟨buf, h, hs, hget⟩ := escapeBuffer_spec fparams rparams hx hy
  refine ⟨buf, h, hs, hget, fun c hc => ?_⟩
  obtain ⟨x, y, hxl, hyl, hc1⟩ := getCell_of_mem_bufferCells buf _ _ hs c hc
  rw [hget x y hxl hyl] at hc1
  have hc2 : pixelValue fparams rparams x y = c := Option.some.inj hc1
  rw [← hc2]
  exact pixelValue_range fparams rparams x y hmax

/-! ## Lemmas on the cumulative distribution -/

theorem histPrefix_succ (hist : List Int) (n : Nat) :
    histPrefix hist (n + 1) = histPrefix hist n + hist.getD n 0 := by
  simp only [histPrefix]
  exact List.sum_range_succ _ n

theorem binsStep_eq (hist : List Int) (total : ℚ) (bins : List ℚ) (rt : ℚ) (n : Nat)
    (hn : n < hist.length) (hb : n < bins.length) :
    binsStep hist total (bins, rt) n =
      some (bins.set n ((rt + (hist.getD n 0 : ℚ)) / total), rt + (hist.getD n 0 : ℚ)) := by
  have h0 : (0 : Int) ≤ (n : Int) := by omega
  have h1 : (0 : Int) ≤ (n : Int) ∧ (n : Int) < bins.length := ⟨h0, by omega⟩
  simp only [binsStep, getAt, setAt, if_pos h0, if_pos h1, Int.toNat_ofNat,
    List.getElem?_eq_getElem hn, List.getD_eq_getElem _ _ hn]
  rfl

/-- The normalisation loop after `n` passes: `running_total` is the prefix sum
and the first `n` bins hold the prefix sums divided by `total`. -/
theorem foldlM_binsStep_spec (hist : List Int) (total : ℚ) (bins0 : List ℚ) :
    ∀ n : Nat, n ≤ hist.length → n ≤ bins0.length →
      ∃ bins, (List.range n).foldlM (binsStep hist total) (bins0, 0) =
          some (bins, (histPrefix hist n : ℚ)) ∧
        bins.length = bins0.length ∧
        (∀ i, i < n → bins[i]? = some ((histPrefix hist (i + 1) : ℚ) / total)) ∧
        ∀ i, n ≤ i → bins[i]? = bins0[i]? := by
  intro n
  induction n with
  | zero =>
    intro _ _
    refine ⟨bins0, ?_, rfl, fun i hi => absurd hi (Nat.not_lt_zero i), fun i _ => rfl⟩
    simp [histPrefix]
  | succ n ih =>
    intro hh hb
    obtain ⟨bins, hf, hl, hlow, hhigh⟩ := ih (by omega) (by omega)
    have hnb : n < bins.length := by omega
    refine ⟨bins.set n (((histPrefix hist n : ℚ) + (hist.getD n 0 : ℚ)) / total),
      ?_, by rw [List.length_set, hl], ?_, ?_⟩
    · rw [List.range_succ, List.foldlM_append, hf]
      simp only [Option.bind_eq_bind, Option.some_bind, List.foldlM_cons, List.foldlM_nil]
      rw [binsStep_eq hist total bins _ n (by omega) hnb, histPrefix_succ]
      simp
    · intro i hi
      by_cases hin : i = n
      · subst hin
        rw [List.getElem?_set_self hnb, histPrefix_succ]
        push_cast
        rfl
      · have hne : n ≠ i := fun h => hin h.symm
        rw [List.getElem?_set_ne hne]
        exact hlow i (by omega)
    · intro i hi
      have hne : n ≠ i := by omega
      rw [List.getElem?_set_ne hne]
      exact hhigh i (by omega)

/-- The normalisation phase on a histogram of `max_iterations ≥ 1` entries. -/
theorem computeBins_spec (hist : List Int) (Dx Dy max_iterations : Int)
    (hmax : 1 ≤ max_iterations) (hlen : hist.length = max_iterations.toNat) :
    ∃ bins, computeBins hist Dx Dy max_iterations = some bins ∧
      bins.length = max_iterations.toNat ∧
      (∀ i : Nat, i + 1 < max_iterations.toNat →
        bins[i]? = some ((histPrefix hist (i + 1) : ℚ) / ((Dx * Dy : Int) : ℚ))) ∧
      bins[max_iterations.toNat - 1]? = some 1 := by
  obtain ⟨bins, hf, hl, hlow, _⟩ := foldlM_binsStep_spec hist ((Dx * Dy : Int) : ℚ)
    (List.replicate max_iterations.toNat 0) (max_iterations.toNat - 1)
    (by omega) (by rw [List.length_replicate]; omega)
  rw [List.length_replicate] at hl
  have hneg : ¬ max_iterations < 0 := by omega
  have hidx : (0 : Int) ≤ (bins.length : Int) - 1 ∧ (bins.length : Int) - 1 < bins.length :=
    ⟨by omega, by omega⟩
  have hn : ((bins.length : Int) - 1).toNat = max_iterations.toNat - 1 := by omega
  have hlast : max_iterations.toNat - 1 < bins.length := by omega
  refine ⟨bins.set (max_iterations.toNat - 1) 1, ?_, by rw [List.length_set, hl], ?_, ?_⟩
  · have hr : (((List.replicate max_iterations.toNat (0 : ℚ)).length : Int) - 1).toNat =
        max_iterations.toNat - 1 := by
      rw [List.length_replicate]; omega
    simp only [computeBins, makeSlice, if_neg hneg, Option.bind_eq_bind, Option.some_bind,
      hr, hf, setAt, if_pos hidx, hn]
  · intro i hi
    have hne : max_iterations.toNat - 1 ≠ i := by omega
    rw [List.getElem?_set_ne hne]
    exact hlow i (by omega)
  · exact List.getElem?_set_self hlast

theorem countP_le_succ (vs : List Int) (n : Int) :
    vs.countP (fun c => decide (c ≤ n + 1)) =
      vs.countP (fun c => decide (c ≤ n)) + vs.count (n + 1) := by
  induction vs with
  | nil => rfl
  | cons v rest ih =>
    rw [List.countP_cons, List.countP_cons, List.count_cons, ih]
    by_cases h1 : v ≤ n
    · have h2 : v ≤ n + 1 := by omega
      have h3 : ¬ v = n + 1 := by omega
      simp [h1, h2, h3]
      omega
    · by_cases h3 : v = n + 1
      · have h2 : v ≤ n + 1 := by omega
        simp [h1, h2, h3]
        omega
      · have h2 : ¬ v ≤ n + 1 := by omega
        simp [h1, h2, h3]

/-- With cells all at least `1`, the prefix sum of the histogram up to `n` is
the number of cells with value at most `n`. -/
theorem histPrefix_eq_cellsAtMost (buf : List (List Int)) (hist : List Int)
    (hget : ∀ i : Nat, hist.getD i 0 = cellsEqual buf ((i : Int) + 1))
    (hpos : ∀ c ∈ bufferCells buf, 1 ≤ c) :
    ∀ n : Nat, histPrefix hist n = cellsAtMost buf (n : Int) := by
  intro n
  induction n with
  | zero =>
    have h0 : cellsAtMost buf ((0 : Nat) : Int) = 0 := by
      rw [cellsAtMost, List.countP_eq_zero]
      intro c hc
      have := hpos c hc
      simp only [Int.Nat.cast_ofNat_Int, decide_eq_true_eq]
      omega
    rw [h0]
    simp [histPrefix]
  | succ n ih =>
    rw [histPrefix_succ, ih, hget n]
    have h := countP_le_succ (bufferCells buf) (n : Int)
    simp only [cellsAtMost, cellsEqual]
    push_cast
    rw [h]
    push_cast
    rfl

theorem cellsAtMost_mono (buf : List (List Int)) (a b : Int) (hab : a ≤ b) :
    cellsAtMost buf a ≤ cellsAtMost buf b := by
  apply List.countP_mono_left
  intro c _ hc
  simp only [decide_eq_true_eq] at hc ⊢
  omega

theorem cellsAtMost_le_length (buf : List (List Int)) (a : Int) :
    cellsAtMost buf a ≤ (bufferCells buf).length :=
  List.countP_le_length _

theorem cellsAtMost_eq_length (buf : List (List Int)) (a : Int)
    (h : ∀ c ∈ bufferCells buf, c ≤ a) :
    cellsAtMost buf a = (bufferCells buf).length := by
  rw [cellsAtMost, List.countP_eq_length]
  intro c hc
  simpa using h c hc

/-- The histogram and normalisation phases on a buffer of shape `Dx × Dy`
whose cells all lie in `[1, max_iterations]`. -/
theorem cumulativeBins_spec (buf : List (List Int)) (Dx Dy : Nat) (max_iterations : Int)
    (hs : BufferShape buf Dx Dy)
    (hcells : ∀ c ∈ bufferCells buf, 1 ≤ c ∧ c ≤ max_iterations)
    (hmax : 1 ≤ max_iterations) :
    ∃ hist bins, buildHist buf Dx Dy max_iterations = some hist ∧
      cumulativeBins buf Dx Dy max_iterations = some bins ∧
      bins.length = max_iterations.toNat ∧
      (∀ n : Nat, histPrefix hist n = cellsAtMost buf (n : Int)) ∧
      (∀ i : Nat, i + 1 < max_iterations.toNat →
        bins[i]? = some ((cellsAtMost buf ((i : Int) + 1) : ℚ) / ((Dx * Dy : Nat) : ℚ))) ∧
      bins[max_iterations.toNat - 1]? = some 1 := by
  obtain ⟨hist, hb, hl, _, hget⟩ := buildHist_spec buf Dx Dy max_iterations hs hcells (by omega)
  obtain ⟨bins, hc, hbl, hlow, hlast⟩ := computeBins_spec hist Dx Dy max_iterations hmax hl
  have hpre := histPrefix_eq_cellsAtMost buf hist hget (fun c hc => (hcells c hc).1)
  refine ⟨hist, bins, hb, ?_, hbl, hpre, ?_, hlast⟩
  · simp only [cumulativeBins, hb, Option.bind_eq_bind, Option.some_bind]
    exact hc
  · intro i hi
    rw [hlow i hi, hpre (i + 1)]
    push_cast
    rfl

/-- On a buffer with at least one pixel, every bin, the forced last one
included, is the fraction of cells with escape value at most its index plus one. -/
theorem cumulativeBins_fraction (buf : List (List Int)) (Dx Dy : Nat) (max_iterations : Int)
    (hs : BufferShape buf Dx Dy) (htotal : 0 < Dx * Dy)
    (hcells : ∀ c ∈ bufferCells buf, 1 ≤ c ∧ c ≤ max_iterations) :
    ∃ hist bins, buildHist buf Dx Dy max_iterations = some hist ∧
      cumulativeBins buf Dx Dy max_iterations = some bins ∧
      bins.length = max_iterations.toNat ∧ 1 ≤ max_iterations ∧
      (∀ n : Nat, histPrefix hist n = cellsAtMost buf (n : Int)) ∧
      ∀ i : Nat, i < max_iterations.toNat →
        bins[i]? = some ((cellsAtMost buf ((i : Int) + 1) : ℚ) / ((Dx * Dy : Nat) : ℚ)) := by
  have hlen := length_bufferCells buf Dx Dy hs
  have hmax : 1 ≤ max_iterations := by
    cases hc : bufferCells buf with
    | nil =>
      rw [hc, List.length_nil] at hlen
      omega
    | cons c rest =>
      have := hcells c (by rw [hc]; exact List.mem_cons_self _ _)
      omega
  obtain ⟨hist, bins, hb, hc, hl, hpre, hlow, hlast⟩ :=
    cumulativeBins_spec buf Dx Dy max_iterations hs hcells hmax
  refine ⟨hist, bins, hb, hc, hl, hmax, hpre, fun i hi => ?_⟩
  by_cases hi1 : i + 1 < max_iterations.toNat
  · exact hlow i hi1
  · have hi2 : i = max_iterations.toNat - 1 := by omega
    have hi3 : (i : Int) + 1 = max_iterations := by omega
    have hfull : cellsAtMost buf max_iterations = Dx * Dy := by
      rw [cellsAtMost_eq_length buf _ (fun c hc => (hcells c hc).2), hlen]
    rw [hi2] at *
    rw [hlast, hi3, hfull, div_self]
    have : (0 : ℚ) < ((Dx * Dy : Nat) : ℚ) := by exact_mod_cast htotal
    exact ne_of_gt this

/-! ## Lemmas on the colouring phase -/

theorem BlackAndGreen_alpha (val : ℚ) : (BlackAndGreen val).A = 255 := by
  unfold BlackAndGreen
  split <;> simp [toUint8]

theorem SetRGBA_Rect (im : RGBAImage) (x y : Int) (c : RGBA) :
    (im.SetRGBA x y c).Rect = im.Rect := by
  unfold RGBAImage.SetRGBA
  split <;> rfl

theorem SetRGBA_pix_self (im : RGBAImage) (x y : Int) (c : RGBA)
    (hin : (ImagePoint.mk x y).In im.Rect) : (im.SetRGBA x y c).pix x y = c := by
  simp [RGBAImage.SetRGBA, hin]

theorem SetRGBA_pix_other (im : RGBAImage) (x y X Y : Int) (c : RGBA)
    (hne : (x, y) ≠ (X, Y)) : (im.SetRGBA x y c).pix X Y = im.pix X Y := by
  unfold RGBAImage.SetRGBA
  split
  · have h : ¬ (X = x ∧ Y = y) := fun h => hne (by rw [h.1, h.2])
    simp [h]
  · rfl

theorem paintTarget_injective (rparams : renderingParams) (p q : Nat × Nat)
    (h : paintTarget rparams p = paintTarget rparams q) : p = q := by
  simp only [paintTarget, Prod.mk.injEq] at h
  exact Prod.ext (by omega) (by omega)

/-- The colouring loop over a list of pixels whose colour `col p` is available
and whose target lies inside the image: every target holds the colour of its
pixel and every other point is unchanged. -/
theorem foldlM_paintStep_spec (rparams : renderingParams) (buf : List (List Int))
    (bins : List ℚ) (col : Nat × Nat → RGBA) :
    ∀ (ps : List (Nat × Nat)) (im : RGBAImage),
      (∀ p ∈ ps, (∀ im0 : RGBAImage, paintStep rparams buf bins im0 p =
          some (im0.SetRGBA (paintTarget rparams p).1 (paintTarget rparams p).2 (col p))) ∧
        (ImagePoint.mk (paintTarget rparams p).1 (paintTarget rparams p).2).In im.Rect) →
      ∃ im1, ps.foldlM (paintStep rparams buf bins) im = some im1 ∧ im1.Rect = im.Rect ∧
        (∀ p ∈ ps, im1.pix (paintTarget rparams p).1 (paintTarget rparams p).2 = col p) ∧
        ∀ X Y, (∀ p ∈ ps, paintTarget rparams p ≠ (X, Y)) → im1.pix X Y = im.pix X Y := by
  intro ps
  induction ps with
  | nil =>
    intro im _
    exact ⟨im, rfl, rfl, fun p hp => absurd hp (List.not_mem_nil p), fun _ _ _ => rfl⟩
  | cons p rest ih =>
    intro im hps
    obtain ⟨hstep, hin⟩ := hps p (List.mem_cons_self _ _)
    obtain ⟨im1, hf, hrect, hcol, hother⟩ :=
      ih (im.SetRGBA (paintTarget rparams p).1 (paintTarget rparams p).2 (col p))
        (fun q hq => ⟨(hps q (List.mem_cons_of_mem _ hq)).1, by
          rw [SetRGBA_Rect]
          exact (hps q (List.mem_cons_of_mem _ hq)).2⟩)
    refine ⟨im1, ?_, by rw [hrect, SetRGBA_Rect], ?_, ?_⟩
    · simp only [List.foldlM_cons, hstep im, Option.bind_eq_bind, Option.some_bind]
      exact hf
    · intro q hq
      by_cases hqr : q ∈ rest
      · exact hcol q hqr
      · have hqp : q = p := by
          rcases List.mem_cons.1 hq with h | h
          · exact h
          · exact absurd h hqr
        subst hqp
        rw [hother _ _ (fun r hr hrq => hqr (by
          have := paintTarget_injective rparams r q hrq
          rw [← this]
          exact hr))]
        exact SetRGBA_pix_self im _ _ _ hin
    · intro X Y hne
      rw [hother X Y (fun r hr => hne r (List.mem_cons_of_mem _ hr))]
      exact SetRGBA_pix_other im _ _ X Y _ (hne p (List.mem_cons_self _ _))

theorem nodup_gridPixels (Dx Dy : Int) : (gridPixels Dx Dy).Nodup :=
  List.Nodup.product (List.nodup_range _) (List.nodup_range _)

theorem countP_eq_one_of_unique {α : Type} (P : α → Bool) (a : α) :
    ∀ l : List α, l.Nodup → a ∈ l → (∀ b ∈ l, P b = true ↔ b = a) → l.countP P = 1 := by
  intro l
  induction l with
  | nil => intro _ h; exact absurd h (List.not_mem_nil a)
  | cons b t ih =>
    intro hnd hmem hP
    obtain ⟨hbt, hndt⟩ := List.nodup_cons.1 hnd
    rw [List.countP_cons]
    by_cases hba : b = a
    · subst hba
      have hb : P b = true := (hP b (List.mem_cons_self _ _)).2 rfl
      have ht : t.countP P = 0 := by
        rw [List.countP_eq_zero]
        intro c hc hPc
        have hcb : c = b := (hP c (List.mem_cons_of_mem _ hc)).1 hPc
        exact hbt (hcb ▸ hc)
      rw [ht, if_pos hb]
    · have hb : ¬ P b = true := fun h => hba ((hP b (List.mem_cons_self _ _)).1 h)
      have hat : a ∈ t := by
        rcases List.mem_cons.1 hmem with h | h
        · exact absurd h.symm hba
        · exact h
      rw [ih hndt hat (fun c hc => hP c (List.mem_cons_of_mem _ hc)), if_neg hb]

/-- Inside a display rectangle anchored at the origin, every point is the
target of exactly one grid pixel. -/
theorem countP_paintTarget (rparams : renderingParams)
    (hmin : rparams.display_quality.Min = ⟨0, 0⟩) (X Y : Int)
    (hin : (ImagePoint.mk X Y).In rparams.display_quality) :
    (gridPixels rparams.display_quality.Dx rparams.display_quality.Dy).countP
      (fun p => decide (paintTarget rparams p = (X, Y))) = 1 := by
  simp only [ImagePoint.In, hmin] at hin
  have hDx : rparams.display_quality.Dx = rparams.display_quality.Max.X := by
    simp [ImageRectangle.Dx, hmin]
  have hDy : rparams.display_quality.Dy = rparams.display_quality.Max.Y := by
    simp [ImageRectangle.Dy, hmin]
  have htarget : paintTarget rparams (X.toNat, (rparams.display_quality.Dy - 1 - Y).toNat) =
      (X, Y) := by
    simp only [paintTarget, Prod.mk.injEq]
    constructor
    · omega
    · omega
  apply countP_eq_one_of_unique _ (X.toNat, (rparams.display_quality.Dy - 1 - Y).toNat) _
    (nodup_gridPixels _ _)
  · rw [mem_gridPixels]
    constructor
    · show X.toNat < rparams.display_quality.Dx.toNat
      omega
    · show (rparams.display_quality.Dy - 1 - Y).toNat < rparams.display_quality.Dy.toNat
      omega
  · intro q _
    rw [decide_eq_true_eq]
    constructor
    · intro h
      exact paintTarget_injective rparams _ _ (h.trans htarget.symm)
    · intro h
      rw [h]
      exact htarget

/-- The whole of `CreateFractalImage` on a well-formed display rectangle
anchored at the origin: the run succeeds and the final image holds, at the
target of every grid pixel, the colour of that pixel's bin. -/
theorem CreateFractalImage_spec (fparams : fractalParams) (rparams : renderingParams)
    (hmin : rparams.display_quality.Min = ⟨0, 0⟩)
    (hx : 0 ≤ rparams.display_quality.Dx) (hy : 0 ≤ rparams.display_quality.Dy)
    (hmax : 1 ≤ rparams.max_iterations) :
    ∃ buf bins im, escapeBuffer fparams rparams = some buf ∧
      cumulativeBins buf rparams.display_quality.Dx rparams.display_quality.Dy
        rparams.max_iterations = some bins ∧
      CreateFractalImage fparams rparams = some im ∧
      im.Rect = rparams.display_quality ∧
      ∀ p ∈ gridPixels rparams.display_quality.Dx rparams.display_quality.Dy,
        (ImagePoint.mk (paintTarget rparams p).1 (paintTarget rparams p).2).In
          rparams.display_quality ∧
        ∃ v val, getCell buf p.1 p.2 = some v ∧ getAt bins (v - 1) = some val ∧
          im.pix (paintTarget rparams p).1 (paintTarget rparams p).2 =
            rparams.colorSchemeFunc val := by
  obtain ⟨buf, hbuf, hs, hget, hcells⟩ := escapeBuffer_cells_range fparams rparams hmax hx hy
  obtain ⟨hist, bins, hb, hc, hbl, _, _, _⟩ := cumulativeBins_spec buf _ _
    rparams.max_iterations hs hcells hmax
  have hDx : ((rparams.display_quality.Dx.toNat : Nat) : Int) = rparams.display_quality.Dx :=
    Int.toNat_of_nonneg hx
  have hDy : ((rparams.display_quality.Dy.toNat : Nat) : Int) = rparams.display_quality.Dy :=
    Int.toNat_of_nonneg hy
  rw [hDx, hDy] at hb hc
  have hcomp : computeBins hist rparams.display_quality.Dx rparams.display_quality.Dy
      rparams.max_iterations = some bins := by
    simpa only [cumulativeBins, hb, Option.bind_eq_bind, Option.some_bind] using hc
  have hnew : NewRGBA rparams.display_quality =
      some ⟨rparams.display_quality, fun _ _ => ⟨0, 0, 0, 0⟩⟩ := by
    have hn : ¬ (rparams.display_quality.Dx < 0 ∨ rparams.display_quality.Dy < 0) := by omega
    simp only [NewRGBA, if_neg hn]
  have hMaxX : rparams.display_quality.Dx = rparams.display_quality.Max.X := by
    simp [ImageRectangle.Dx, hmin]
  have hMaxY : rparams.display_quality.Dy = rparams.display_quality.Max.Y := by
    simp [ImageRectangle.Dy, hmin]
  have hinRect : ∀ p ∈ gridPixels rparams.display_quality.Dx rparams.display_quality.Dy,
      (ImagePoint.mk (paintTarget rparams p).1 (paintTarget rparams p).2).In
        rparams.display_quality := by
    intro p hp
    obtain ⟨h1, h2⟩ := (mem_gridPixels _ _ p).1 hp
    simp only [ImagePoint.In, paintTarget, hmin]
    refine ⟨by omega, by omega, by omega, by omega⟩
  have hval : ∀ p ∈ gridPixels rparams.display_quality.Dx rparams.display_quality.Dy,
      getCell buf p.1 p.2 = some (pixelValue fparams rparams p.1 p.2) ∧
      getAt bins (pixelValue fparams rparams p.1 p.2 - 1) =
        some (bins.getD (pixelValue fparams rparams p.1 p.2 - 1).toNat 0) := by
    intro p hp
    obtain ⟨h1, h2⟩ := (mem_gridPixels _ _ p).1 hp
    have hr := pixelValue_range fparams rparams p.1 p.2 hmax
    refine ⟨hget p.1 p.2 h1 h2, ?_⟩
    have hi : (pixelValue fparams rparams p.1 p.2 - 1).toNat < bins.length := by omega
    rw [← getAt_of_getD bins _ 0 hi]
    congr 1
    omega
  obtain ⟨im, hf, hrect, hcol, _⟩ := foldlM_paintStep_spec rparams buf bins
    (fun p => rparams.colorSchemeFunc
      (bins.getD (pixelValue fparams rparams p.1 p.2 - 1).toNat 0))
    (gridPixels rparams.display_quality.Dx rparams.display_quality.Dy)
    ⟨rparams.display_quality, fun _ _ => ⟨0, 0, 0, 0⟩⟩
    (fun p hp => ⟨fun im0 => by
      simp only [paintStep, (hval p hp).1, (hval p hp).2, Option.bind_eq_bind,
        Option.some_bind, paintTarget]
      rfl, hinRect p hp⟩)
  refine ⟨buf, bins, im, hbuf, hc, ?_, hrect, ?_⟩
  · simp only [CreateFractalImage, hnew, hbuf, hb, hcomp, Option.bind_eq_bind, Option.some_bind]
    exact hf
  · intro p hp
    exact ⟨hinRect p hp, _, _, (hval p hp).1, (hval p hp).2, hcol p hp⟩

/-- The colouring loop over pixels whose colours are available succeeds,
whatever the display rectangle, and leaves every point that is the target of
no pixel as it was. -/
theorem foldlM_paintStep_frame (rparams : renderingParams) (buf : List (List Int))
    (bins : List ℚ) (col : Nat × Nat → RGBA) :
    ∀ (ps : List (Nat × Nat)) (im : RGBAImage),
      (∀ p ∈ ps, ∀ im0 : RGBAImage, paintStep rparams buf bins im0 p =
          some (im0.SetRGBA (paintTarget rparams p).1 (paintTarget rparams p).2 (col p))) →
      ∃ im1, ps.foldlM (paintStep rparams buf bins) im = some im1 ∧ im1.Rect = im.Rect ∧
        ∀ X Y, (∀ p ∈ ps, paintTarget rparams p ≠ (X, Y)) → im1.pix X Y = im.pix X Y := by
  intro ps
  induction ps with
  | nil =>
    intro im _
    exact ⟨im, rfl, rfl, fun _ _ _ => rfl⟩
  | cons p rest ih =>
    intro im hps
    obtain ⟨im1, hf, hrect, hother⟩ :=
      ih (im.SetRGBA (paintTarget rparams p).1 (paintTarget rparams p).2 (col p))
        (fun q hq => hps q (List.mem_cons_of_mem _ hq))
    refine ⟨im1, ?_, by rw [hrect, SetRGBA_Rect], ?_⟩
    · simp only [List.foldlM_cons, hps p (List.mem_cons_self _ _) im, Option.bind_eq_bind,
        Option.some_bind]
      exact hf
    · intro X Y hne
      rw [hother X Y (fun r hr => hne r (List.mem_cons_of_mem _ hr))]
      exact SetRGBA_pix_other im _ _ X Y _ (hne p (List.mem_cons_self _ _))

/-- On a well-formed display rectangle, anchored anywhere, and with
`max_iterations ≥ 1`, no phase of `CreateFractalImage` panics: the buffer, the
histogram, the bins and the image are all produced, every cell lies in
`[1, max_iterations]`, and a point that is the target of no grid pixel keeps
the zero colour of the fresh image. -/
theorem CreateFractalImage_runs (fparams : fractalParams) (rparams : renderingParams)
    (hx : 0 ≤ rparams.display_quality.Dx) (hy : 0 ≤ rparams.display_quality.Dy)
    (hmax : 1 ≤ rparams.max_iterations) :
    ∃ buf hist bins im, escapeBuffer fparams rparams = some buf ∧
      buildHist buf rparams.display_quality.Dx rparams.display_quality.Dy
        rparams.max_iterations = some hist ∧
      computeBins hist rparams.display_quality.Dx rparams.display_quality.Dy
        rparams.max_iterations = some bins ∧
      hist.length = rparams.max_iterations.toNat ∧
      bins.length = rparams.max_iterations.toNat ∧
      (∀ x y, x < rparams.display_quality.Dx.toNat → y < rparams.display_quality.Dy.toNat →
        getCell buf x y = some (pixelValue fparams rparams x y)) ∧
      CreateFractalImage fparams rparams = some im ∧
      im.Rect = rparams.display_quality ∧
      ∀ X Y, (∀ p ∈ gridPixels rparams.display_quality.Dx rparams.display_quality.Dy,
          paintTarget rparams p ≠ (X, Y)) → im.pix X Y = ⟨0, 0, 0, 0⟩ := by
  obtain ⟨buf, hbuf, hs, hget, hcells⟩ := escapeBuffer_cells_range fparams rparams hmax hx hy
  obtain ⟨hist, hb, hl, _, _⟩ := buildHist_spec buf _ _ rparams.max_iterations hs hcells
    (by omega)
  obtain ⟨bins, hcomp, hbl, _, _⟩ := computeBins_spec hist rparams.display_quality.Dx
    rparams.display_quality.Dy rparams.max_iterations hmax hl
  have hDx : ((rparams.display_quality.Dx.toNat : Nat) : Int) = rparams.display_quality.Dx :=
    Int.toNat_of_nonneg hx
  have hDy : ((rparams.display_quality.Dy.toNat : Nat) : Int) = rparams.display_quality.Dy :=
    Int.toNat_of_nonneg hy
  rw [hDx, hDy] at hb
  have hnew : NewRGBA rparams.display_quality =
      some ⟨rparams.display_quality, fun _ _ => ⟨0, 0, 0, 0⟩⟩ := by
    have hn : ¬ (rparams.display_quality.Dx < 0 ∨ rparams.display_quality.Dy < 0) := by omega
    simp only [NewRGBA, if_neg hn]
  have hval : ∀ p ∈ gridPixels rparams.display_quality.Dx rparams.display_quality.Dy,
      getCell buf p.1 p.2 = some (pixelValue fparams rparams p.1 p.2) ∧
      getAt bins (pixelValue fparams rparams p.1 p.2 - 1) =
        some (bins.getD (pixelValue fparams rparams p.1 p.2 - 1).toNat 0) := by
    intro p hp
    obtain ⟨h1, h2⟩ := (mem_gridPixels _ _ p).1 hp
    have hr := pixelValue_range fparams rparams p.1 p.2 hmax
    refine ⟨hget p.1 p.2 h1 h2, ?_⟩
    have hi : (pixelValue fparams rparams p.1 p.2 - 1).toNat < bins.length := by omega
    rw [← getAt_of_getD bins _ 0 hi]
    congr 1
    omega
  obtain ⟨im, hf, hrect, hframe⟩ := foldlM_paintStep_frame rparams buf bins
    (fun p => rparams.colorSchemeFunc
      (bins.getD (pixelValue fparams rparams p.1 p.2 - 1).toNat 0))
    (gridPixels rparams.display_quality.Dx rparams.display_quality.Dy)
    ⟨rparams.display_quality, fun _ _ => ⟨0, 0, 0, 0⟩⟩
    (fun p hp im0 => by
      simp only [paintStep, (hval p hp).1, (hval p hp).2, Option.bind_eq_bind,
        Option.some_bind, paintTarget]
      rfl)
  refine ⟨buf, hist, bins, im, hbuf, hb, hcomp, hl, hbl, hget, ?_, hrect, hframe⟩
  simp only [CreateFractalImage, hnew, hbuf, hb, hcomp, Option.bind_eq_bind, Option.some_bind]
  exact hf

/-! ## Lemmas on task orders -/

/-- A successful cell write changes the written cell and no other. -/
theorem setCell_frame (buf buf1 : List (List Int)) (ax ay : Nat) (v : Int)
    (h : setCell buf ax ay v = some buf1) :
    ∀ x y, getCell buf1 x y = if x = ax ∧ y = ay then some v else getCell buf x y := by
  simp only [setCell, Option.bind_eq_bind, Option.bind_eq_some] at h
  obtain ⟨col, hcol, hw⟩ := h
  have hxl : ax < buf.length := by
    by_contra hcon
    rw [List.getElem?_eq_none (by omega)] at hcol
    cases hcol
  have hcol1 : buf[ax] = col := by
    rw [List.getElem?_eq_getElem hxl] at hcol
    exact Option.some.inj hcol
  by_cases hyl : ay < col.length
  · rw [if_pos hyl] at hw
    have hb : buf1 = buf.set ax (col.set ay v) := (Option.some.inj hw).symm
    subst hb
    intro x y
    by_cases hxa : x = ax
    · subst hxa
      by_cases hya : y = ay
      · subst hya
        simp [getCell, List.getElem?_set_self hxl, List.getElem?_set_self hyl]
      · have hne : ay ≠ y := fun h => hya h.symm
        simp [getCell, List.getElem?_set_self hxl, List.getElem?_eq_getElem hxl,
          List.getElem?_set_ne hne, hya, hcol1]
    · have hne : ax ≠ x := fun h => hxa h.symm
      simp [getCell, List.getElem?_set_ne hne, hxa]
  · rw [if_neg hyl] at hw
    cases hw

/-- Two buffers of the same shape with the same cells are equal. -/
theorem buffer_ext (b1 b2 : List (List Int)) (Dx Dy : Nat)
    (h1 : BufferShape b1 Dx Dy) (h2 : BufferShape b2 Dx Dy)
    (h : ∀ x y, getCell b1 x y = getCell b2 x y) : b1 = b2 := by
  apply List.ext_getElem (h1.1.trans h2.1.symm)
  intro x hx1 hx2
  apply List.ext_getElem?
  intro y
  have hxy := h x y
  simpa [getCell, List.getElem?_eq_getElem hx1, List.getElem?_eq_getElem hx2] using hxy

theorem length_gridPixels (Dx Dy : Int) :
    (gridPixels Dx Dy).length = Dx.toNat * Dy.toNat := by
  have h : gridPixels Dx Dy = List.product (List.range Dx.toNat) (List.range Dy.toNat) := rfl
  rw [h]
  exact (List.length_product _ _).trans (by rw [List.length_range, List.length_range])

theorem gridPixels_eq_nil (Dx Dy : Int) (h : Dx < 0 ∨ Dy < 0) : gridPixels Dx Dy = [] := by
  apply List.eq_nil_iff_forall_not_mem.2
  intro p hp
  have := (mem_gridPixels Dx Dy p).1 hp
  omega

/-- The buffer does not depend on the order in which the tasks are executed. -/
theorem escapeBufferIn_perm (fparams : fractalParams) (rparams : renderingParams)
    (tasks : List (Nat × Nat))
    (hperm : tasks.Perm (gridPixels rparams.display_quality.Dx rparams.display_quality.Dy)) :
    escapeBufferIn fparams rparams tasks = escapeBuffer fparams rparams := by
  by_cases hneg : rparams.display_quality.Dx < 0 ∨ rparams.display_quality.Dy < 0
  · rw [gridPixels_eq_nil _ _ hneg] at hperm
    have ht : tasks = [] := List.Perm.eq_nil hperm
    simp only [escapeBufferIn, escapeBuffer, ht, gridPixels_eq_nil _ _ hneg]
  · have hx : 0 ≤ rparams.display_quality.Dx := by omega
    have hy : 0 ≤ rparams.display_quality.Dy := by omega
    obtain ⟨b1, hr1, hs1, hg1⟩ := runTasks_spec fparams rparams
      rparams.display_quality.Dx.toNat rparams.display_quality.Dy.toNat tasks
      (List.replicate rparams.display_quality.Dx.toNat
        (List.replicate rparams.display_quality.Dy.toNat 0))
      (bufferShape_replicate _ _)
      (fun p hp => (mem_gridPixels _ _ p).1 (hperm.mem_iff.1 hp))
    obtain ⟨b2, hr2, hs2, hg2⟩ := runTasks_spec fparams rparams
      rparams.display_quality.Dx.toNat rparams.display_quality.Dy.toNat
      (gridPixels rparams.display_quality.Dx rparams.display_quality.Dy)
      (List.replicate rparams.display_quality.Dx.toNat
        (List.replicate rparams.display_quality.Dy.toNat 0))
      (bufferShape_replicate _ _)
      (fun p hp => (mem_gridPixels _ _ p).1 hp)
    have heq : b1 = b2 := by
      apply buffer_ext b1 b2 _ _ hs1 hs2
      intro x y
      rw [hg1 x y, hg2 x y]
      by_cases hm : (x, y) ∈ tasks
      · rw [if_pos hm, if_pos (hperm.mem_iff.1 hm)]
      · rw [if_neg hm, if_neg (fun h => hm (hperm.mem_iff.2 h))]
    simp only [escapeBufferIn, escapeBuffer, makeBuffer_eq _ _ hx hy, Option.bind_eq_bind,
      Option.some_bind, hr1, hr2, heq]

/-! ## Lemmas on pixel coordinates -/

/-- A pixel index below the grid size, scaled by extent over grid size, stays
below the extent. -/
theorem scaled_lt_extent (lo hi : ℚ) (p : Nat) (D : Int) (hle : lo ≤ hi) (hne : lo ≠ hi)
    (hp : (p : Int) < D) :
    0 ≤ (p : ℚ) * (|lo - hi| / (D : ℚ)) ∧ (p : ℚ) * (|lo - hi| / (D : ℚ)) < hi - lo := by
  have hlt : lo < hi := lt_of_le_of_ne hle hne
  have habs : |lo - hi| = hi - lo := by
    rw [abs_of_neg (by linarith)]
    ring
  have hD : (0 : ℚ) < (D : ℚ) := by
    have : (0 : Int) < D := by omega
    exact_mod_cast this
  have hpD : (p : ℚ) < (D : ℚ) := by exact_mod_cast hp
  have hp0 : (0 : ℚ) ≤ (p : ℚ) := Nat.cast_nonneg p
  have hW : (0 : ℚ) < hi - lo := by linarith
  rw [habs]
  constructor
  · exact mul_nonneg hp0 (div_nonneg (le_of_lt hW) (le_of_lt hD))
  · have h1 : (p : ℚ) * ((hi - lo) / (D : ℚ)) = ((p : ℚ) / (D : ℚ)) * (hi - lo) := by
      field_simp
    rw [h1]
    have h2 : (p : ℚ) / (D : ℚ) < 1 := (div_lt_one hD).2 hpD
    calc (p : ℚ) / (D : ℚ) * (hi - lo) < 1 * (hi - lo) := mul_lt_mul_of_pos_right h2 hW
      _ = hi - lo := one_mul _

/-! ## Lemmas on the first-generation loop -/

theorem Man_mk (x y x0 y0 : ℚ) :
    Man ⟨x, y⟩ ⟨x0, y0⟩ = ⟨x * x - y * y + x0, 2 * x * y + y0⟩ := by
  simp only [Man, Cplx.mul, Cplx.add, Cplx.mk.injEq, true_and]
  ring

theorem cmplxAbsLt_two (x y : ℚ) : cmplxAbsLt ⟨x, y⟩ 2 ↔ x * x + y * y < 2 * 2 := by
  simp only [cmplxAbsLt, Cplx.normSq]
  constructor
  · exact fun h => h.2
  · exact fun h => ⟨by norm_num, h⟩

/-- From equal states the loop of `Mandelbrot` and the loop of
`GetEscapeIterations` with `Man`, start constant `x0 + y0 i` and threshold `2`
return the same count. -/
theorem mandelbrotLoop_eq_escapeLoop (x0 y0 : ℚ) (m : Int) :
    ∀ (n : Nat) (x y : ℚ) (it : Int), (m - it).toNat = n →
      mandelbrotLoop x0 y0 m x y it = escapeLoop Man ⟨x0, y0⟩ 2 m ⟨x, y⟩ it := by
  intro n
  induction n with
  | zero =>
    intro x y it hn
    have hg : ¬ (x * x + y * y < 2 * 2 ∧ it < m) := by rintro ⟨_, h⟩; omega
    rw [mandelbrotLoop, if_neg hg, escapeLoop_exit _ _ _ _ _ _ (by rintro ⟨_, h⟩; omega)]
  | succ n ih =>
    intro x y it hn
    by_cases hg : x * x + y * y < 2 * 2 ∧ it < m
    · rw [mandelbrotLoop, if_pos hg,
        escapeLoop_continue _ _ _ _ _ _ ((cmplxAbsLt_two x y).2 hg.1) hg.2, Man_mk]
      exact ih _ _ _ (by omega)
    · rw [mandelbrotLoop, if_neg hg,
        escapeLoop_exit _ _ _ _ _ _ (fun h => hg ⟨(cmplxAbsLt_two x y).1 h.1, h.2⟩)]

/-! ## Lemmas on the recurrence of the specification -/

theorem specBinsStep_eq (hist : List Int) (total : ℚ) (bins : List ℚ) (v : Nat) (prev : ℚ)
    (hv1 : 1 ≤ v) (hprev : bins[v - 1]? = some prev)
    (hv : v < hist.length) (hb : v < bins.length) :
    specBinsStep hist total bins v =
      some (bins.set v (prev + (hist.getD v 0 : ℚ) / total)) := by
  have h0 : (0 : Int) ≤ (v : Int) - 1 := by omega
  have h1 : (0 : Int) ≤ (v : Int) := by omega
  have h2 : (0 : Int) ≤ (v : Int) ∧ (v : Int) < bins.length := ⟨h1, by omega⟩
  have hidx : ((v : Int) - 1).toNat = v - 1 := by omega
  simp only [specBinsStep, getAt, setAt, if_pos h0, if_pos h1, if_pos h2, hidx, hprev,
    Int.toNat_ofNat, List.getElem?_eq_getElem hv, List.getD_eq_getElem _ _ hv,
    Option.bind_eq_bind, Option.some_bind]

/-- The recurrence after the steps `v = 1, ..., k`: the bins `0, ..., k` hold
the prefix sums divided by `total`. -/
theorem foldlM_specBinsStep_spec (hist : List Int) (total : ℚ) (b1 : List ℚ)
    (hb0 : b1[0]? = some ((histPrefix hist 1 : ℚ) / total)) :
    ∀ k : Nat, k + 1 ≤ hist.length → k + 1 ≤ b1.length →
      ∃ b, (List.range' 1 k).foldlM (specBinsStep hist total) b1 = some b ∧
        b.length = b1.length ∧
        (∀ i, i ≤ k → b[i]? = some ((histPrefix hist (i + 1) : ℚ) / total)) ∧
        ∀ i, k < i → b[i]? = b1[i]? := by
  intro k
  induction k with
  | zero =>
    intro _ _
    refine ⟨b1, rfl, rfl, fun i hi => ?_, fun _ _ => rfl⟩
    have hi0 : i = 0 := by omega
    rw [hi0]
    exact hb0
  | succ k ih =>
    intro hh hb
    obtain ⟨b, hf, hl, hlow, hhigh⟩ := ih (by omega) (by omega)
    have hkb : k + 1 < b.length := by omega
    have hstep := specBinsStep_eq hist total b (k + 1) _ (by omega)
      (by simpa using hlow k (le_refl k)) (by omega) hkb
    refine ⟨b.set (k + 1) ((histPrefix hist (k + 1) : ℚ) / total +
        (hist.getD (k + 1) 0 : ℚ) / total), ?_, by rw [List.length_set, hl], ?_, ?_⟩
    · rw [List.range'_concat, List.foldlM_append, hf]
      simp only [Option.bind_eq_bind, Option.some_bind, List.foldlM_cons, List.foldlM_nil,
        Nat.one_mul]
      rw [Nat.add_comm 1 k, hstep]
      rfl
    · intro i hi
      by_cases hik : i = k + 1
      · subst hik
        rw [List.getElem?_set_self hkb, histPrefix_succ hist (k + 1)]
        push_cast
        rw [add_div]
      · have hne : k + 1 ≠ i := fun h => hik h.symm
        rw [List.getElem?_set_ne hne]
        exact hlow i (by omega)
    · intro i hi
      have hne : k + 1 ≠ i := by omega
      rw [List.getElem?_set_ne hne]
      exact hhigh i (by omega)

/-- The recurrence of the specification on a histogram of `max_iterations ≥ 1`
entries. -/
theorem specBins_spec (hist : List Int) (total : ℚ) (max_iterations : Int)
    (hmax : 1 ≤ max_iterations) (hlen : hist.length = max_iterations.toNat) :
    ∃ bins, specBins hist total max_iterations = some bins ∧
      bins.length = max_iterations.toNat ∧
      (∀ i : Nat, i + 1 < max_iterations.toNat →
        bins[i]? = some ((histPrefix hist (i + 1) : ℚ) / total)) ∧
      bins[max_iterations.toNat - 1]? = some 1 := by
  have hneg : ¬ max_iterations < 0 := by omega
  have hpos : 0 < hist.length := by omega
  have hrep : 0 < (List.replicate max_iterations.toNat (0 : ℚ)).length := by
    rw [List.length_replicate]; omega
  have hb0 : ((List.replicate max_iterations.toNat (0 : ℚ)).set 0
      ((hist.getD 0 0 : ℚ) / total))[0]? = some ((histPrefix hist 1 : ℚ) / total) := by
    have hp1 : histPrefix hist 1 = hist.getD 0 0 := by
      rw [histPrefix_succ hist 0]
      simp [histPrefix]
    rw [List.getElem?_set_self hrep, hp1]
  obtain ⟨b, hf, hl, hlow, _⟩ := foldlM_specBinsStep_spec hist total _ hb0
    ((max_iterations - 1).toNat - 1) (by omega)
    (by rw [List.length_set, List.length_replicate]; omega)
  rw [List.length_set, List.length_replicate] at hl
  have hlast : max_iterations.toNat - 1 < b.length := by omega
  have hidx : (0 : Int) ≤ max_iterations - 1 ∧ max_iterations - 1 < b.length :=
    ⟨by omega, by omega⟩
  have hn : (max_iterations - 1).toNat = max_iterations.toNat - 1 := by omega
  refine ⟨b.set (max_iterations.toNat - 1) 1, ?_, by rw [List.length_set, hl], ?_, ?_⟩
  · have h00 : (0 : Int) ≤ 0 := le_refl 0
    have h01 : (0 : Int) ≤ 0 ∧ (0 : Int) < (List.replicate max_iterations.toNat (0 : ℚ)).length :=
      ⟨le_refl 0, by omega⟩
    simp only [specBins, makeSlice, if_neg hneg, getAt, setAt, if_pos h00, if_pos h01,
      Int.toNat_zero, List.getElem?_eq_getElem hpos, ← List.getD_eq_getElem hist 0 hpos,
      Option.bind_eq_bind, Option.some_bind, hf, if_pos hidx]
    rw [hn]
  · intro i hi
    have hne : max_iterations.toNat - 1 ≠ i := by omega
    rw [List.getElem?_set_ne hne]
    exact hlow i (by omega)
  · exact List.getElem?_set_self hlast

/-! ## Lemmas on the colour channels -/

/-- The integer square root used by the model is the integer part of
`255·√val` over the reals. -/
theorem sqrtTimes255_eq_floor (val : ℚ) (h0 : 0 ≤ val) :
    ((sqrtTimes255 val : Nat) : Int) = ⌊255 * Real.sqrt (val : ℝ)⌋ := by
  have hnn : (0 : ℚ) ≤ val * 65025 := by positivity
  have hfl0 : 0 ≤ ⌊val * 65025⌋ := Int.floor_nonneg.2 hnn
  have hcast : ((⌊val * 65025⌋.toNat : Nat) : Int) = ⌊val * 65025⌋ := Int.toNat_of_nonneg hfl0
  have hlo : ((⌊val * 65025⌋.toNat : Nat) : ℚ) ≤ val * 65025 := by
    have h := Int.floor_le (val * 65025)
    rw [← hcast] at h
    exact_mod_cast h
  have hhi : val * 65025 < ((⌊val * 65025⌋.toNat : Nat) : ℚ) + 1 := by
    have h := Int.lt_floor_add_one (val * 65025)
    rw [← hcast] at h
    exact_mod_cast h
  have hloR : ((⌊val * 65025⌋.toNat : Nat) : ℝ) ≤ (val : ℝ) * 65025 := by exact_mod_cast hlo
  have hhiR : (val : ℝ) * 65025 < ((⌊val * 65025⌋.toNat : Nat) : ℝ) + 1 := by
    exact_mod_cast hhi
  have hs1 : Nat.sqrt ⌊val * 65025⌋.toNat ^ 2 ≤ ⌊val * 65025⌋.toNat := Nat.sqrt_le' _
  have hs2 : ⌊val * 65025⌋.toNat + 1 ≤ (Nat.sqrt ⌊val * 65025⌋.toNat + 1) ^ 2 :=
    Nat.lt_succ_sqrt' _
  have hs1R : ((Nat.sqrt ⌊val * 65025⌋.toNat : Nat) : ℝ) ^ 2 ≤
      ((⌊val * 65025⌋.toNat : Nat) : ℝ) := by exact_mod_cast hs1
  have hs2R : ((⌊val * 65025⌋.toNat : Nat) : ℝ) + 1 ≤
      (((Nat.sqrt ⌊val * 65025⌋.toNat : Nat) : ℝ) + 1) ^ 2 := by exact_mod_cast hs2
  have h255 : (255 : ℝ) * Real.sqrt (val : ℝ) = Real.sqrt ((val : ℝ) * 65025) := by
    have hsq : Real.sqrt 65025 = 255 := by
      have h : (65025 : ℝ) = 255 ^ 2 := by norm_num
      rw [h, Real.sqrt_sq (by norm_num)]
    have hv : (0 : ℝ) ≤ (val : ℝ) := by exact_mod_cast h0
    rw [Real.sqrt_mul hv, hsq]
    ring
  symm
  rw [Int.floor_eq_iff, h255]
  simp only [sqrtTimes255, Int.cast_natCast]
  constructor
  · rw [Real.le_sqrt (Nat.cast_nonneg _) (by positivity)]
    linarith
  · rw [Real.sqrt_lt' (by positivity)]
    linarith

theorem sqrtTimes255_mono (v1 v2 : ℚ) (h : v1 ≤ v2) : sqrtTimes255 v1 ≤ sqrtTimes255 v2 := by
  unfold sqrtTimes255
  apply Nat.sqrt_le_sqrt
  apply Int.toNat_le_toNat
  apply Int.floor_mono
  linarith

theorem sqrtTimes255_le (val : ℚ) (h1 : val < 1) : sqrtTimes255 val ≤ 254 := by
  have hlt : ⌊val * 65025⌋ < 65025 := by
    rw [Int.floor_lt]
    push_cast
    linarith
  have hn : ⌊val * 65025⌋.toNat < 255 ^ 2 := by omega
  have := Nat.sqrt_lt'.2 hn
  unfold sqrtTimes255
  omega

/-- Below `1` the channel arithmetic of `BlackAndGreen` does not wrap. -/
theorem BlackAndGreen_of_lt_one (val : ℚ) (h1 : val < 1) :
    BlackAndGreen val = ⟨0, 255 - sqrtTimes255 val, 127 - sqrtTimes255 val / 2, 255⟩ := by
  have ht := sqrtTimes255_le val h1
  have hne : ¬ val = 1 := ne_of_lt h1
  simp only [BlackAndGreen, if_neg hne, toUint8, uint8Sub, RGBA.mk.injEq]
  refine ⟨trivial, by omega, by omega, trivial⟩

/-! ## Lemmas on float64 rounding -/

theorem log_two_eq (q : ℚ) (e : ℤ) (hq : 0 < q) (hlo : (2 : ℚ) ^ e ≤ q)
    (hhi : q < (2 : ℚ) ^ (e + 1)) : Int.log 2 q = e := by
  apply le_antisymm
  · have h := (Int.lt_zpow_iff_log_lt (b := 2) (by norm_num) hq).1
      (by exact_mod_cast hhi : q < ((2 : ℕ) : ℚ) ^ (e + 1))
    omega
  · exact (Int.zpow_le_iff_le_log (b := 2) (by norm_num) hq).1 (by exact_mod_cast hlo)

theorem roundHalfEven_eq (q : ℚ) (n : ℤ) (h1 : (n : ℚ) - 1 / 2 < q)
    (h2 : q < (n : ℚ) + 1 / 2) : roundHalfEven q = n := by
  by_cases hle : (n : ℚ) ≤ q
  · have hf : ⌊q⌋ = n := Int.floor_eq_iff.2 ⟨hle, by linarith⟩
    have hc : q - (n : ℚ) < 1 / 2 := by linarith
    simp only [roundHalfEven, hf, if_pos hc]
  · have hf : ⌊q⌋ = n - 1 := Int.floor_eq_iff.2 ⟨by push_cast; linarith, by push_cast; linarith⟩
    have hc1 : ¬ q - ((n - 1 : ℤ) : ℚ) < 1 / 2 := by push_cast; linarith
    have hc2 : 1 / 2 < q - ((n - 1 : ℤ) : ℚ) := by push_cast; linarith
    simp only [roundHalfEven, hf, if_neg hc1, if_pos hc2]
    omega

theorem roundHalfEven_tie (q : ℚ) (f : ℤ) (hq : q = (f : ℚ) + 1 / 2) (hodd : f % 2 = 1) :
    roundHalfEven q = f + 1 := by
  have hf : ⌊q⌋ = f := Int.floor_eq_iff.2 ⟨by linarith, by linarith⟩
  have hc1 : ¬ q - (f : ℚ) < 1 / 2 := by linarith
  have hc2 : ¬ 1 / 2 < q - (f : ℚ) := by linarith
  have hc3 : ¬ f % 2 = 0 := by omega
  simp only [roundHalfEven, hf, if_neg hc1, if_neg hc2, if_neg hc3]

/-- A positive `q` in the binade `[2^e, 2^(e+1))` whose quotient by `2^(e-52)`
is within one half of the integer `n` rounds to `n * 2^(e-52)`. -/
theorem roundFloat64_eq (q : ℚ) (e n : ℤ) (hq : 0 < q) (hlo : (2 : ℚ) ^ e ≤ q)
    (hhi : q < (2 : ℚ) ^ (e + 1)) (h1 : (n : ℚ) - 1 / 2 < q / 2 ^ (e - 52))
    (h2 : q / 2 ^ (e - 52) < (n : ℚ) + 1 / 2) :
    roundFloat64 q = (n : ℚ) * 2 ^ (e - 52) := by
  have hne : ¬ q = 0 := ne_of_gt hq
  simp only [roundFloat64, if_neg hne, abs_of_pos hq, log_two_eq q e hq hlo hhi,
    roundHalfEven_eq _ n h1 h2]

/-- A positive `q` in the binade `[2^e, 2^(e+1))` whose quotient by `2^(e-52)`
is the odd integer `f` plus one half rounds to `(f + 1) * 2^(e-52)`. -/
theorem roundFloat64_tie (q : ℚ) (e f : ℤ) (hq : 0 < q) (hlo : (2 : ℚ) ^ e ≤ q)
    (hhi : q < (2 : ℚ) ^ (e + 1)) (hm : q / 2 ^ (e - 52) = (f : ℚ) + 1 / 2)
    (hodd : f % 2 = 1) :
    roundFloat64 q = ((f + 1 : ℤ) : ℚ) * 2 ^ (e - 52) := by
  have hne : ¬ q = 0 := ne_of_gt hq
  simp only [roundFloat64, if_neg hne, abs_of_pos hq, log_two_eq q e hq hlo hhi,
    roundHalfEven_tie _ f hm hodd]

/-- A positive `q` in the binade `[2^e, 2^(e+1))` with `q / 4^k` strictly
between `(n + 1/2)²` and `(n + 1)²`, where `k = e/2 - 52`, has rounded square
root `(n + 1) * 2^k`. -/
theorem sqrtFloat64_up (q : ℚ) (e k : ℤ) (n : ℕ) (hq : 0 < q) (hlo : (2 : ℚ) ^ e ≤ q)
    (hhi : q < (2 : ℚ) ^ (e + 1)) (hk : e / 2 - 52 = k)
    (h1 : ((n : ℚ) + 1 / 2) ^ 2 < q / 2 ^ (2 * k))
    (h2 : q / 2 ^ (2 * k) < ((n : ℚ) + 1) ^ 2) :
    sqrtFloat64 q = ((n : ℚ) + 1) * 2 ^ k := by
  have hnle : ¬ q ≤ 0 := not_le.2 hq
  have hz0 : (0 : ℚ) ≤ q / 2 ^ (2 * k) := le_of_lt (lt_of_le_of_lt (by positivity) h1)
  have hfl0 : 0 ≤ ⌊q / 2 ^ (2 * k)⌋ := Int.floor_nonneg.2 hz0
  have hn2 : ((n : ℚ)) ^ 2 ≤ q / 2 ^ (2 * k) := by
    have : ((n : ℚ)) ^ 2 ≤ ((n : ℚ) + 1 / 2) ^ 2 := by
      have hn0 : (0 : ℚ) ≤ (n : ℚ) := Nat.cast_nonneg n
      nlinarith
    linarith
  have hsq : Nat.sqrt ⌊q / 2 ^ (2 * k)⌋.toNat = n := by
    symm
    rw [Nat.eq_sqrt]
    constructor
    · have h : ((n * n : ℕ) : ℤ) ≤ ⌊q / 2 ^ (2 * k)⌋ := by
        rw [Int.le_floor]
        push_cast
        nlinarith
      omega
    · have h : ⌊q / 2 ^ (2 * k)⌋ < (((n + 1) * (n + 1) : ℕ) : ℤ) := by
        rw [Int.floor_lt]
        push_cast
        nlinarith
      omega
  have hc1 : ¬ q / 2 ^ (2 * k) < ((n : ℚ) + 1 / 2) ^ 2 := not_lt.2 (le_of_lt h1)
  simp only [sqrtFloat64, if_neg hnle, log_two_eq q e hq hlo hhi, hk, hsq, if_neg hc1, if_pos h1]


/-! ## The rounded magnitude at a point just inside the disc -/

theorem roundFloat64_quotient :
    roundFloat64 (roundingX / roundingY) = 6837926731238573 / 2 ^ 53 := by
  rw [roundFloat64_eq _ (-1) 6837926731238573 (by norm_num [roundingX, roundingY])
    (by norm_num [roundingX, roundingY]) (by norm_num [roundingX, roundingY])
    (by norm_num [roundingX, roundingY]) (by norm_num [roundingX, roundingY])]
  norm_num

theorem roundFloat64_square :
    roundFloat64 (6837926731238573 / 2 ^ 53 * (6837926731238573 / 2 ^ 53)) =
      5191096661614995 / 2 ^ 53 := by
  rw [roundFloat64_eq _ (-1) 5191096661614995 (by norm_num) (by norm_num) (by norm_num)
    (by norm_num) (by norm_num)]
  norm_num

theorem roundFloat64_one_add :
    roundFloat64 (1 + 5191096661614995 / 2 ^ 53) = 7099147958177994 / 2 ^ 52 := by
  rw [roundFloat64_tie _ 0 7099147958177993 (by norm_num) (by norm_num) (by norm_num)
    (by norm_num) (by decide)]
  norm_num

theorem sqrtFloat64_sum :
    sqrtFloat64 (7099147958177994 / 2 ^ 52) = 5654354083279401 / 2 ^ 52 := by
  rw [sqrtFloat64_up _ 0 (-52) 5654354083279400 (by norm_num) (by norm_num) (by norm_num)
    (by decide) (by norm_num) (by norm_num)]
  norm_num

theorem roundFloat64_product :
    roundFloat64 (roundingY * (5654354083279401 / 2 ^ 52)) = 2 := by
  rw [roundFloat64_eq _ 0 9007199254740992 (by norm_num [roundingY])
    (by norm_num [roundingY]) (by norm_num [roundingY])
    (by norm_num [roundingY]) (by norm_num [roundingY])]
  norm_num

/-- At `(roundingX, roundingY)` the magnitude `math.Hypot` returns is exactly `2`. -/
theorem hypotFloat64_rounding : hypotFloat64 roundingX roundingY = 2 := by
  have hx : |roundingX| = roundingX := abs_of_pos (by norm_num [roundingX])
  have hy : |roundingY| = roundingY := abs_of_pos (by norm_num [roundingY])
  have hmax : max roundingX roundingY = roundingY :=
    max_eq_right (by norm_num [roundingX, roundingY])
  have hmin : min roundingX roundingY = roundingX :=
    min_eq_left (by norm_num [roundingX, roundingY])
  have hne : ¬ roundingY = 0 := by norm_num [roundingY]
  simp only [hypotFloat64, hx, hy, hmax, hmin, if_neg hne, roundFloat64_quotient,
    roundFloat64_square, roundFloat64_one_add, sqrtFloat64_sum, roundFloat64_product]

/-! ## The rounded channel value just below `1/65025` -/

theorem sqrtFloat64_roundingVal : sqrtFloat64 roundingVal = 4521260802379792 / 2 ^ 60 := by
  rw [sqrtFloat64_up _ (-16) (-60) 4521260802379791 (by norm_num [roundingVal])
    (by norm_num [roundingVal]) (by norm_num [roundingVal]) (by decide)
    (by norm_num [roundingVal]) (by norm_num [roundingVal])]
  norm_num

theorem sqrtTimes255Float64_roundingVal : sqrtTimes255Float64 roundingVal = 1 := by
  have h : roundFloat64 (4521260802379792 / 2 ^ 60 * 255) = 1 := by
    rw [roundFloat64_eq _ (-1) 9007199254740992 (by norm_num) (by norm_num) (by norm_num)
      (by norm_num) (by norm_num)]
    norm_num
  simp [sqrtTimes255Float64, sqrtFloat64_roundingVal, h]

theorem sqrtTimes255_roundingVal : sqrtTimes255 roundingVal = 0 := by
  have h : ⌊roundingVal * 65025⌋ = 0 := by
    rw [Int.floor_eq_iff]
    norm_num [roundingVal]
  simp [sqrtTimes255, h]

/-! ## Lemmas on the loop with a parametric magnitude test -/

theorem escapeLoopOn_continue (absLt : Cplx → ℚ → Bool) (f : chaoticFunction) (b : Cplx)
    (t : ℚ) (m : Int) (a : Cplx) (it : Int) (ha : absLt a t = true) (hit : it < m) :
    escapeLoopOn absLt f b t m a it = escapeLoopOn absLt f b t m (f a b) (it + 1) := by
  rw [escapeLoopOn, if_pos ⟨ha, hit⟩]

theorem escapeLoopOn_exit (absLt : Cplx → ℚ → Bool) (f : chaoticFunction) (b : Cplx)
    (t : ℚ) (m : Int) (a : Cplx) (it : Int) (h : ¬ (absLt a t = true ∧ it < m)) :
    escapeLoopOn absLt f b t m a it = it := by
  rw [escapeLoopOn, if_neg h]

/-- With the exact magnitude test the parametric loop is the loop `escapeLoop`. -/
theorem escapeLoopOn_absLtExact (f : chaoticFunction) (b : Cplx) (t : ℚ) (m : Int) :
    ∀ (n : Nat) (a : Cplx) (it : Int), (m - it).toNat = n →
      escapeLoopOn absLtExact f b t m a it = escapeLoop f b t m a it := by
  intro n
  induction n with
  | zero =>
    intro a it hn
    rw [escapeLoopOn_exit _ _ _ _ _ _ _ (by rintro ⟨_, h⟩; omega),
      escapeLoop_exit _ _ _ _ _ _ (by rintro ⟨_, h⟩; omega)]
  | succ n ih =>
    intro a it hn
    by_cases hg : cmplxAbsLt a t ∧ it < m
    · rw [escapeLoopOn_continue _ _ _ _ _ _ _ (by simpa [absLtExact] using hg.1) hg.2,
        escapeLoop_continue _ _ _ _ _ _ hg.1 hg.2]
      exact ih _ _ (by omega)
    · rw [escapeLoopOn_exit _ _ _ _ _ _ _
          (fun h => hg ⟨by simpa [absLtExact] using h.1, h.2⟩),
        escapeLoop_exit _ _ _ _ _ _ hg]

theorem GetEscapeIterationsOn_absLtExact (x y : ℚ) (fparams : fractalParams)
    (rparams : renderingParams) :
    GetEscapeIterationsOn absLtExact x y fparams rparams =
      GetEscapeIterations x y fparams rparams :=
  escapeLoopOn_absLtExact _ _ _ _ _ _ _ rfl

/-! ## Escape evaluator: specification -/

/-- C1: for every coordinate, chaotic function, start constant, threshold and
every `max_iterations ≥ 1`, `GetEscapeIterations` returns a value `n` with
`1 ≤ n ≤ max_iterations`. -/
theorem GetEscapeIterations_range (x y : ℚ) (fparams : fractalParams)
    (rparams : renderingParams) (hmax : 1 ≤ rparams.max_iterations) :
    1 ≤ GetEscapeIterations x y fparams rparams ∧
      GetEscapeIterations x y fparams rparams ≤ rparams.max_iterations :=
  ⟨escapeLoop_ge _ _ _ _ _ _ _ rfl, escapeLoop_le _ _ _ _ _ _ _ rfl hmax⟩

theorem GetEscapeIterations_range_witness :
    (1 : Int) ≤ demoRendering.max_iterations ∧
    (1 ≤ GetEscapeIterations 0 0 demoFractal demoRendering ∧
      GetEscapeIterations 0 0 demoFractal demoRendering ≤ demoRendering.max_iterations) :=
  ⟨by decide, GetEscapeIterations_range 0 0 _ _ (by decide)⟩

/-- C2, as stated, fails with `float64` rounding.  At the point
`(roundingX, roundingY)` with `Man`, start constant `0+0i`, threshold `2` and
`max_iterations = 5` the exact magnitude of the initial iterate is below `2`
and that of the iterate after one application is not, so the least number of
applications is `k = 1` and the claim gives `min(5, 1 + 1) = 2`; the magnitude
`cmplx.Abs` computes for the initial iterate is exactly `2.0`, the loop body
never runs, and the code returns `1`. -/
theorem GetEscapeIterations_rounding_counterexample :
    (2 : Int) ≤ demoRendering.max_iterations ∧
    cmplxAbsLt (iterateAt demoFractal roundingX roundingY 0) demoRendering.escape_threshold ∧
    ¬ cmplxAbsLt (iterateAt demoFractal roundingX roundingY 1)
      demoRendering.escape_threshold ∧
    cmplxAbsFloat64 (complex roundingX roundingY) = 2 ∧
    GetEscapeIterationsOn absLtFloat64 roundingX roundingY demoFractal demoRendering = 1 ∧
    GetEscapeIterationsOn absLtFloat64 roundingX roundingY demoFractal demoRendering ≠
      min demoRendering.max_iterations (1 + ((1 : Nat) : Int)) := by
  have habs : cmplxAbsFloat64 (complex roundingX roundingY) = 2 := hypotFloat64_rounding
  have hres : GetEscapeIterationsOn absLtFloat64 roundingX roundingY demoFractal
      demoRendering = 1 := by
    rw [GetEscapeIterationsOn, escapeLoopOn_exit]
    rintro ⟨h, _⟩
    have ht : demoRendering.escape_threshold = 2 := rfl
    rw [absLtFloat64, habs, ht] at h
    simp at h
  refine ⟨by decide, ?_, ?_, habs, hres, ?_⟩
  · have ht : demoRendering.escape_threshold = 2 := rfl
    rw [ht]
    norm_num [iterateAt, cmplxAbsLt, Cplx.normSq, complex, roundingX, roundingY]
  · have ht : demoRendering.escape_threshold = 2 := rfl
    rw [ht]
    norm_num [iterateAt, demoFractal, Man, Cplx.mul, Cplx.add, cmplxAbsLt, Cplx.normSq,
      complex, roundingX, roundingY]
  · rw [hres]
    decide

/-- C2, amended: in exact arithmetic, for `max_iterations ≥ 1`,
`GetEscapeIterations` returns
`min(max_iterations, 1 + k)` where `k` is the least number of applications of
the chaotic function to `complex(x, y)` after which the magnitude of the
iterate is no longer below the threshold; a point whose iterates all stay below
the threshold returns `max_iterations`; a point below the threshold initially
but not after one application returns `2` when `max_iterations ≥ 2`. -/
theorem GetEscapeIterations_eq_min (x y : ℚ) (fparams : fractalParams)
    (rparams : renderingParams) (hmax : 1 ≤ rparams.max_iterations) :
    (∀ k : Nat,
        (∀ j, j < k → cmplxAbsLt (iterateAt fparams x y j) rparams.escape_threshold) →
        ¬ cmplxAbsLt (iterateAt fparams x y k) rparams.escape_threshold →
        GetEscapeIterations x y fparams rparams = min rparams.max_iterations (1 + (k : Int))) ∧
    ((∀ j, cmplxAbsLt (iterateAt fparams x y j) rparams.escape_threshold) →
        GetEscapeIterations x y fparams rparams = rparams.max_iterations) ∧
    (cmplxAbsLt (iterateAt fparams x y 0) rparams.escape_threshold →
        ¬ cmplxAbsLt (iterateAt fparams x y 1) rparams.escape_threshold →
        2 ≤ rparams.max_iterations →
        GetEscapeIterations x y fparams rparams = 2) := by
  refine ⟨?_, ?_, ?_⟩
  · intro k hlt hk
    exact escapeLoop_first_escape _ _ _ _ k _ 1 hmax hlt hk
  · intro hall
    exact escapeLoop_never_escape _ _ _ _ _ _ 1 rfl hmax hall
  · intro h0 h1 h2
    have h := escapeLoop_first_escape fparams.function fparams.start rparams.escape_threshold
      rparams.max_iterations 1 (complex x y) 1 hmax
      (fun j hj => by
        have hj0 : j = 0 := by omega
        subst hj0
        exact h0) h1
    unfold GetEscapeIterations
    rw [h, min_eq_right]
    · norm_num
    · push_cast
      omega

theorem GetEscapeIterations_eq_min_witness :
    (1 : Int) ≤ demoRendering.max_iterations ∧
    (∀ j, cmplxAbsLt (iterateAt demoFractal 0 0 j) 2) ∧
    GetEscapeIterations 0 0 demoFractal demoRendering = 5 := by
  have hall : ∀ j, cmplxAbsLt (iterateAt demoFractal 0 0 j) 2 := by
    intro j
    rw [iterateAt_Man_origin]
    norm_num [cmplxAbsLt, Cplx.normSq, complex]
  exact ⟨by decide, hall,
    (GetEscapeIterations_eq_min 0 0 demoFractal demoRendering (by decide)).2.1 hall⟩

/-- C3: for every `max_iterations ≥ 1` and every threshold `> 0`,
`GetEscapeIterations` at the origin with the map `Man` and start constant
`0+0i` returns exactly `max_iterations`. -/
theorem GetEscapeIterations_Man_origin (fparams : fractalParams) (rparams : renderingParams)
    (hf : fparams.function = Man) (hs : fparams.start = ⟨0, 0⟩)
    (hmax : 1 ≤ rparams.max_iterations) (ht : 0 < rparams.escape_threshold) :
    GetEscapeIterations 0 0 fparams rparams = rparams.max_iterations := by
  apply escapeLoop_never_escape _ _ _ _ _ _ 1 rfl hmax
  intro j
  rw [hf, hs, iterate_Man_origin]
  refine ⟨ht, ?_⟩
  simp only [Cplx.normSq, complex]
  nlinarith

theorem GetEscapeIterations_Man_origin_witness :
    demoFractal.function = Man ∧
    demoFractal.start = ⟨0, 0⟩ ∧
    GetEscapeIterations 0 0 demoFractal demoRendering = 5 :=
  ⟨rfl, rfl, GetEscapeIterations_Man_origin demoFractal demoRendering rfl rfl
    (by decide) (by norm_num [demoRendering])⟩

/-- C4, as stated, fails: at `x = 2, y = 2` with `Man`, start constant `0+0i`,
threshold `2` and `max_iterations = 5` the initial iterate already has
magnitude `2√2 ≥ 2`, the loop body never runs and the result is `1`, not `2`. -/
theorem GetEscapeIterations_two_two_ne_two :
    demoFractal.function = Man ∧ demoRendering.escape_threshold = 2 ∧
    (2 : Int) ≤ demoRendering.max_iterations ∧
    GetEscapeIterations 2 2 demoFractal demoRendering ≠ 2 := by
  refine ⟨rfl, rfl, by decide, ?_⟩
  rw [GetEscapeIterations, escapeLoop_exit]
  · decide
  · rintro ⟨⟨_, hlt⟩, _⟩
    have ht : demoRendering.escape_threshold = 2 := rfl
    rw [ht] at hlt
    norm_num [Cplx.normSq, complex] at hlt

/-- C4, amended: at `x = 2, y = 2` with escape threshold `2` the initial
iterate is already outside the disc, so `GetEscapeIterations` returns `1`, for
every chaotic function, start constant and `max_iterations`. -/
theorem GetEscapeIterations_two_two (fparams : fractalParams) (rparams : renderingParams)
    (ht : rparams.escape_threshold = 2) :
    GetEscapeIterations 2 2 fparams rparams = 1 := by
  rw [GetEscapeIterations, escapeLoop_exit]
  rintro ⟨⟨_, hlt⟩, _⟩
  rw [ht] at hlt
  norm_num [Cplx.normSq, complex] at hlt

theorem GetEscapeIterations_two_two_witness :
    demoRendering.escape_threshold = 2 ∧
    GetEscapeIterations 2 2 demoFractal demoRendering = 1 :=
  ⟨rfl, GetEscapeIterations_two_two demoFractal demoRendering rfl⟩

/-! ## Colour scheme: specification -/

/-- C8: for every input `val`, `BlackAndGreen(val)` has red channel `0` and
alpha channel `255`, and `BlackAndGreen(1.0)` is the opaque black colour
`(0, 0, 0, 255)`. -/
theorem BlackAndGreen_red_alpha :
    (∀ val : ℚ, (BlackAndGreen val).R = 0 ∧ (BlackAndGreen val).A = 255) ∧
      BlackAndGreen 1 = ⟨0, 0, 0, 255⟩ := by
  refine ⟨fun val => ?_, by simp [BlackAndGreen]⟩
  unfold BlackAndGreen
  split <;> simp [toUint8]

/-! ## Grid evaluation: specification -/

/-- C10: for every rendering configuration with `max_iterations ≥ 1` (and a
well-formed display rectangle, `Dx, Dy ≥ 0`), after the grid evaluation phase
the escape buffer has `display_quality.Dx()` columns of `display_quality.Dy()`
cells, cell `[px][py]` equals `GetEscapeIterations(px*dx + Min.X, py*dy + Min.Y)`
with `dx = viewing_window.Dx()/display_quality.Dx()` and
`dy = viewing_window.Dy()/display_quality.Dy()`, and no cell holds its
zero-initialised value: every cell is in `[1, max_iterations]`. -/
theorem escapeBuffer_cells (fparams : fractalParams) (rparams : renderingParams)
    (hmax : 1 ≤ rparams.max_iterations)
    (hx : 0 ≤ rparams.display_quality.Dx) (hy : 0 ≤ rparams.display_quality.Dy) :
    ∃ tmp_img, escapeBuffer fparams rparams = some tmp_img ∧
      (tmp_img.length : Int) = rparams.display_quality.Dx ∧
      (∀ col ∈ tmp_img, (col.length : Int) = rparams.display_quality.Dy) ∧
      ∀ px py : Nat, (px : Int) < rparams.display_quality.Dx →
        (py : Int) < rparams.display_quality.Dy →
        ∃ v, getCell tmp_img px py = some v ∧
          v = GetEscapeIterations
            ((px : ℚ) * (rparams.viewing_window.Dx / (rparams.display_quality.Dx : ℚ)) +
              rparams.viewing_window.Min.X)
            ((py : ℚ) * (rparams.viewing_window.Dy / (rparams.display_quality.Dy : ℚ)) +
              rparams.viewing_window.Min.Y) fparams rparams ∧
          v ≠ 0 ∧ 1 ≤ v ∧ v ≤ rparams.max_iterations := by
  obtain ⟨buf, h, hs, hget⟩ := escapeBuffer_spec fparams rparams hx hy
  refine ⟨buf, h, ?_, ?_, ?_⟩
  · rw [hs.1]; omega
  · intro col hcol
    rw [hs.2 col hcol]; omega
  · intro px py hpx hpy
    refine ⟨pixelValue fparams rparams px py, hget px py (by omega) (by omega), rfl, ?_⟩
    have hr := pixelValue_range fparams rparams px py hmax
    exact ⟨by omega, hr.1, hr.2⟩

theorem escapeBuffer_cells_witness :
    (1 : Int) ≤ demoRendering.max_iterations ∧
    0 ≤ demoRendering.display_quality.Dx ∧ 0 ≤ demoRendering.display_quality.Dy ∧
    ∃ tmp_img, escapeBuffer demoFractal demoRendering = some tmp_img ∧
      (tmp_img.length : Int) = demoRendering.display_quality.Dx ∧
      (∀ col ∈ tmp_img, (col.length : Int) = demoRendering.display_quality.Dy) ∧
      ∀ px py : Nat, (px : Int) < demoRendering.display_quality.Dx →
        (py : Int) < demoRendering.display_quality.Dy →
        ∃ v, getCell tmp_img px py = some v ∧
          v = GetEscapeIterations
            ((px : ℚ) * (demoRendering.viewing_window.Dx /
              (demoRendering.display_quality.Dx : ℚ)) + demoRendering.viewing_window.Min.X)
            ((py : ℚ) * (demoRendering.viewing_window.Dy /
              (demoRendering.display_quality.Dy : ℚ)) + demoRendering.viewing_window.Min.Y)
            demoFractal demoRendering ∧
          v ≠ 0 ∧ 1 ≤ v ∧ v ≤ demoRendering.max_iterations :=
  ⟨by decide, by decide, by decide,
    escapeBuffer_cells demoFractal demoRendering (by decide) (by decide) (by decide)⟩

/-! ## Histogram: specification -/

/-- C5: for every viewing window, every pixel grid of width `Dx` and height
`Dy` (`Dx, Dy ≥ 0`) and every `max_iterations ≥ 1`, the histogram built by
`CreateFractalImage` from the escape buffer has `max_iterations` entries whose
sum is `Dx * Dy`, and `hist[v]` is the number of buffer cells equal to `v + 1`
for every `v` in `[0, max_iterations)`. -/
theorem histogram_counts (fparams : fractalParams) (rparams : renderingParams)
    (hmax : 1 ≤ rparams.max_iterations)
    (hx : 0 ≤ rparams.display_quality.Dx) (hy : 0 ≤ rparams.display_quality.Dy) :
    ∃ tmp_img hist, escapeBuffer fparams rparams = some tmp_img ∧
      buildHist tmp_img rparams.display_quality.Dx rparams.display_quality.Dy
        rparams.max_iterations = some hist ∧
      (hist.length : Int) = rparams.max_iterations ∧
      hist.sum = rparams.display_quality.Dx * rparams.display_quality.Dy ∧
      ∀ v : Nat, (v : Int) < rparams.max_iterations →
        getAt hist (v : Int) = some ((cellsEqual tmp_img ((v : Int) + 1) : Nat) : Int) := by
  obtain ⟨buf, h, hs, _, hcells⟩ := escapeBuffer_cells_range fparams rparams hmax hx hy
  obtain ⟨hist, hb, hl, hsum, hget⟩ := buildHist_spec buf _ _ rparams.max_iterations hs hcells
    (by omega)
  have hDx : ((rparams.display_quality.Dx.toNat : Nat) : Int) = rparams.display_quality.Dx :=
    Int.toNat_of_nonneg hx
  have hDy : ((rparams.display_quality.Dy.toNat : Nat) : Int) = rparams.display_quality.Dy :=
    Int.toNat_of_nonneg hy
  refine ⟨buf, hist, h, ?_, ?_, ?_, ?_⟩
  · rw [← hb, hDx, hDy]
  · rw [hl]; omega
  · rw [hsum, length_bufferCells buf _ _ hs]
    push_cast
    rw [hDx, hDy]
  · intro v hv
    rw [getAt_of_getD hist v 0 (by omega), hget v]

theorem histogram_counts_witness :
    (1 : Int) ≤ demoRendering.max_iterations ∧
    0 ≤ demoRendering.display_quality.Dx ∧ 0 ≤ demoRendering.display_quality.Dy ∧
    ∃ tmp_img hist, escapeBuffer demoFractal demoRendering = some tmp_img ∧
      buildHist tmp_img demoRendering.display_quality.Dx demoRendering.display_quality.Dy
        demoRendering.max_iterations = some hist ∧
      (hist.length : Int) = demoRendering.max_iterations ∧
      hist.sum = demoRendering.display_quality.Dx * demoRendering.display_quality.Dy ∧
      ∀ v : Nat, (v : Int) < demoRendering.max_iterations →
        getAt hist (v : Int) = some ((cellsEqual tmp_img ((v : Int) + 1) : Nat) : Int) :=
  ⟨by decide, by decide, by decide,
    histogram_counts demoFractal demoRendering (by decide) (by decide) (by decide)⟩

/-! ## Cumulative distribution: specification -/

/-- C6: for every escape buffer with at least one pixel whose cells all lie in
`[1, max_iterations]`, the cumulative distribution `bins` has `max_iterations`
entries, is non-decreasing (`bins[i] ≤ bins[i+1]` for every `i`, the step into
the forced final bin included), every entry lies in `[0, 1]`, and
`bins[max_iterations-1] = 1.0`. -/
theorem bins_monotone (tmp_img : List (List Int)) (Dx Dy : Nat) (max_iterations : Int)
    (hs : BufferShape tmp_img Dx Dy) (htotal : 0 < Dx * Dy)
    (hcells : ∀ c ∈ bufferCells tmp_img, 1 ≤ c ∧ c ≤ max_iterations) :
    ∃ bins, cumulativeBins tmp_img Dx Dy max_iterations = some bins ∧
      (bins.length : Int) = max_iterations ∧
      (∀ (i : Nat) (a b : ℚ), bins[i]? = some a → bins[i + 1]? = some b → a ≤ b) ∧
      (∀ b ∈ bins, 0 ≤ b ∧ b ≤ 1) ∧
      getAt bins (max_iterations - 1) = some 1 := by
  obtain ⟨hist, bins, _, hc, hl, hmax, _, hfrac⟩ :=
    cumulativeBins_fraction tmp_img Dx Dy max_iterations hs htotal hcells
  have hlen := length_bufferCells tmp_img Dx Dy hs
  have htq : (0 : ℚ) < ((Dx * Dy : Nat) : ℚ) := by exact_mod_cast htotal
  refine ⟨bins, hc, by omega, ?_, ?_, ?_⟩
  · intro i a b ha hb
    have hi : i + 1 < bins.length := by
      by_contra hcon
      rw [List.getElem?_eq_none (by omega)] at hb
      cases hb
    rw [hfrac i (by omega)] at ha
    rw [hfrac (i + 1) (by omega)] at hb
    rw [← Option.some.inj ha, ← Option.some.inj hb]
    apply div_le_div_of_nonneg_right _ (le_of_lt htq)
    have := cellsAtMost_mono tmp_img ((i : Int) + 1) (((i + 1 : Nat) : Int) + 1)
      (by push_cast; omega)
    exact_mod_cast this
  · intro b hb
    obtain ⟨i, hi, rfl⟩ := List.getElem_of_mem hb
    have h := hfrac i (by omega)
    rw [List.getElem?_eq_getElem hi] at h
    rw [Option.some.inj h]
    refine ⟨div_nonneg (by positivity) (le_of_lt htq), ?_⟩
    rw [div_le_one htq]
    have := cellsAtMost_le_length tmp_img ((i : Int) + 1)
    rw [hlen] at this
    exact_mod_cast this
  · have h0 : (0 : Int) ≤ max_iterations - 1 := by omega
    have h := hfrac (max_iterations - 1).toNat (by omega)
    have hfull : cellsAtMost tmp_img max_iterations = Dx * Dy := by
      rw [cellsAtMost_eq_length tmp_img _ (fun c hc => (hcells c hc).2), hlen]
    have hidx : (((max_iterations - 1).toNat : Nat) : Int) + 1 = max_iterations := by omega
    rw [hidx, hfull, div_self (ne_of_gt htq)] at h
    simp only [getAt, if_pos h0]
    exact h

theorem bins_monotone_witness :
    BufferShape [[1, 2], [2, 3]] 2 2 ∧ 0 < 2 * 2 ∧
    (∀ c ∈ bufferCells [[1, 2], [2, 3]], 1 ≤ c ∧ c ≤ (3 : Int)) ∧
    ∃ bins, cumulativeBins [[1, 2], [2, 3]] (2 : Nat) (2 : Nat) 3 = some bins ∧
      (bins.length : Int) = 3 ∧
      (∀ (i : Nat) (a b : ℚ), bins[i]? = some a → bins[i + 1]? = some b → a ≤ b) ∧
      (∀ b ∈ bins, 0 ≤ b ∧ b ≤ 1) ∧
      getAt bins ((3 : Int) - 1) = some 1 :=
  ⟨by decide, by decide, by decide,
    bins_monotone [[1, 2], [2, 3]] 2 2 3 (by decide) (by decide) (by decide)⟩

/-- C7: for every escape buffer with `total > 0` pixels whose cells all lie in
`[1, max_iterations]` and every index `i` in `[0, max_iterations)`, `bins[i]`
equals (number of pixels with escape value `≤ i + 1`) divided by `total`; in
particular the running sum over the whole histogram divided by `total` is
`1.0`, the value forced into the last bin. -/
theorem bins_eq_fraction (tmp_img : List (List Int)) (Dx Dy : Nat) (max_iterations : Int)
    (hs : BufferShape tmp_img Dx Dy) (htotal : 0 < Dx * Dy)
    (hcells : ∀ c ∈ bufferCells tmp_img, 1 ≤ c ∧ c ≤ max_iterations) :
    ∃ hist bins, buildHist tmp_img Dx Dy max_iterations = some hist ∧
      cumulativeBins tmp_img Dx Dy max_iterations = some bins ∧
      (∀ i : Nat, (i : Int) < max_iterations →
        getAt bins (i : Int) =
          some ((cellsAtMost tmp_img ((i : Int) + 1) : ℚ) / ((Dx * Dy : Nat) : ℚ))) ∧
      (histPrefix hist max_iterations.toNat : ℚ) / ((Dx * Dy : Nat) : ℚ) = 1 ∧
      getAt bins (max_iterations - 1) = some 1 := by
  obtain ⟨hist, bins, hb, hc, hl, hmax, hpre, hfrac⟩ :=
    cumulativeBins_fraction tmp_img Dx Dy max_iterations hs htotal hcells
  have hlen := length_bufferCells tmp_img Dx Dy hs
  have htq : (0 : ℚ) < ((Dx * Dy : Nat) : ℚ) := by exact_mod_cast htotal
  have hfull : cellsAtMost tmp_img max_iterations = Dx * Dy := by
    rw [cellsAtMost_eq_length tmp_img _ (fun c hc => (hcells c hc).2), hlen]
  have hcast : ((max_iterations.toNat : Nat) : Int) = max_iterations := by omega
  refine ⟨hist, bins, hb, hc, ?_, ?_, ?_⟩
  · intro i hi
    have h0 : (0 : Int) ≤ (i : Int) := by omega
    simp only [getAt, if_pos h0, Int.toNat_ofNat]
    exact hfrac i (by omega)
  · rw [hpre max_iterations.toNat, hcast, hfull]
    push_cast
    exact div_self (by exact_mod_cast (ne_of_gt htq))
  · have h0 : (0 : Int) ≤ max_iterations - 1 := by omega
    have h := hfrac (max_iterations - 1).toNat (by omega)
    have hidx : (((max_iterations - 1).toNat : Nat) : Int) + 1 = max_iterations := by omega
    rw [hidx, hfull, div_self (ne_of_gt htq)] at h
    simp only [getAt, if_pos h0]
    exact h

theorem bins_eq_fraction_witness :
    BufferShape [[1, 2], [2, 3]] 2 2 ∧ 0 < 2 * 2 ∧
    (∀ c ∈ bufferCells [[1, 2], [2, 3]], 1 ≤ c ∧ c ≤ (3 : Int)) ∧
    ∃ hist bins, buildHist [[1, 2], [2, 3]] (2 : Nat) (2 : Nat) 3 = some hist ∧
      cumulativeBins [[1, 2], [2, 3]] (2 : Nat) (2 : Nat) 3 = some bins ∧
      (∀ i : Nat, (i : Int) < 3 →
        getAt bins (i : Int) =
          some ((cellsAtMost [[1, 2], [2, 3]] ((i : Int) + 1) : ℚ) / ((2 * 2 : Nat) : ℚ))) ∧
      (histPrefix hist (3 : Int).toNat : ℚ) / ((2 * 2 : Nat) : ℚ) = 1 ∧
      getAt bins ((3 : Int) - 1) = some 1 :=
  ⟨by decide, by decide, by decide,
    bins_eq_fraction [[1, 2], [2, 3]] 2 2 3 (by decide) (by decide) (by decide)⟩

/-! ## Image assembly: specification -/

/-- C9: for every display rectangle anchored at the origin with width `Dx` and
height `Dy` and every `max_iterations ≥ 1`, `CreateFractalImage` sets image
pixel `(px, Dy - py - 1)` to `colorScheme(bins[buffer[px][py] - 1])` for every
grid pixel `(px, py)`; the map `py ↦ Dy - py - 1` is a bijection on `[0, Dy)`;
every pixel inside the image bounds is assigned exactly once; and with
`BlackAndGreen` every pixel of the resulting image has alpha `255`. -/
theorem CreateFractalImage_pixels (fparams : fractalParams) (rparams : renderingParams)
    (hmin : rparams.display_quality.Min = ⟨0, 0⟩)
    (hx : 0 ≤ rparams.display_quality.Dx) (hy : 0 ≤ rparams.display_quality.Dy)
    (hmax : 1 ≤ rparams.max_iterations) :
    ∃ tmp_img bins im, escapeBuffer fparams rparams = some tmp_img ∧
      cumulativeBins tmp_img rparams.display_quality.Dx rparams.display_quality.Dy
        rparams.max_iterations = some bins ∧
      CreateFractalImage fparams rparams = some im ∧
      im.Rect = rparams.display_quality ∧
      (∀ px py : Nat, (px : Int) < rparams.display_quality.Dx →
        (py : Int) < rparams.display_quality.Dy →
        ∃ v val, getCell tmp_img px py = some v ∧ getAt bins (v - 1) = some val ∧
          im.RGBAAt (px : Int) (rparams.display_quality.Dy - (py : Int) - 1) =
            rparams.colorSchemeFunc val) ∧
      Set.BijOn (fun py : Int => rparams.display_quality.Dy - py - 1)
        (Set.Ico 0 rparams.display_quality.Dy) (Set.Ico 0 rparams.display_quality.Dy) ∧
      (∀ X Y : Int, (ImagePoint.mk X Y).In rparams.display_quality →
        (gridPixels rparams.display_quality.Dx rparams.display_quality.Dy).countP
          (fun p => decide (paintTarget rparams p = (X, Y))) = 1) ∧
      (rparams.colorSchemeFunc = BlackAndGreen →
        ∀ X Y : Int, (ImagePoint.mk X Y).In rparams.display_quality →
          (im.RGBAAt X Y).A = 255) := by
  obtain ⟨buf, bins, im, hbuf, hbins, hrun, hrect, hpix⟩ :=
    CreateFractalImage_spec fparams rparams hmin hx hy hmax
  refine ⟨buf, bins, im, hbuf, hbins, hrun, hrect, ?_, ?_, ?_, ?_⟩
  · intro px py hpx hpy
    have hp : (px, py) ∈ gridPixels rparams.display_quality.Dx rparams.display_quality.Dy :=
      (mem_gridPixels _ _ (px, py)).2 ⟨by show px < _; omega, by show py < _; omega⟩
    obtain ⟨hin, v, val, hv, hval, hc⟩ := hpix (px, py) hp
    refine ⟨v, val, hv, hval, ?_⟩
    rw [← hrect] at hin
    have hin1 : (ImagePoint.mk (px : Int) (rparams.display_quality.Dy - (py : Int) - 1)).In
        im.Rect := hin
    rw [RGBAImage.RGBAAt, if_pos hin1]
    exact hc
  · refine ⟨fun y hy1 => ?_, fun a _ b _ hab => ?_, fun y hy1 => ?_⟩
    · simp only [Set.mem_Ico] at hy1 ⊢
      omega
    · simp only at hab
      omega
    · simp only [Set.mem_Ico] at hy1
      refine ⟨rparams.display_quality.Dy - y - 1, ?_, ?_⟩
      · simp only [Set.mem_Ico]
        omega
      · simp only
        omega
  · intro X Y hin
    exact countP_paintTarget rparams hmin X Y hin
  · intro hcs X Y hin
    have hone := countP_paintTarget rparams hmin X Y hin
    have hpos : 0 < (gridPixels rparams.display_quality.Dx rparams.display_quality.Dy).countP
        (fun p => decide (paintTarget rparams p = (X, Y))) := by omega
    obtain ⟨p, hp, hpt⟩ := List.countP_pos_iff.1 hpos
    rw [decide_eq_true_eq] at hpt
    obtain ⟨_, v, val, _, _, hc⟩ := hpix p hp
    rw [hpt] at hc
    have hin1 : (ImagePoint.mk X Y).In im.Rect := by rw [hrect]; exact hin
    rw [RGBAImage.RGBAAt, if_pos hin1]
    simp only at hc
    rw [hc, hcs]
    exact BlackAndGreen_alpha val

theorem CreateFractalImage_pixels_witness :
    demoRendering.display_quality.Min = ⟨0, 0⟩ ∧
    0 ≤ demoRendering.display_quality.Dx ∧ 0 ≤ demoRendering.display_quality.Dy ∧
    (1 : Int) ≤ demoRendering.max_iterations ∧
    ∃ tmp_img bins im, escapeBuffer demoFractal demoRendering = some tmp_img ∧
      cumulativeBins tmp_img demoRendering.display_quality.Dx demoRendering.display_quality.Dy
        demoRendering.max_iterations = some bins ∧
      CreateFractalImage demoFractal demoRendering = some im ∧
      im.Rect = demoRendering.display_quality ∧
      (∀ px py : Nat, (px : Int) < demoRendering.display_quality.Dx →
        (py : Int) < demoRendering.display_quality.Dy →
        ∃ v val, getCell tmp_img px py = some v ∧ getAt bins (v - 1) = some val ∧
          im.RGBAAt (px : Int) (demoRendering.display_quality.Dy - (py : Int) - 1) =
            demoRendering.colorSchemeFunc val) ∧
      Set.BijOn (fun py : Int => demoRendering.display_quality.Dy - py - 1)
        (Set.Ico 0 demoRendering.display_quality.Dy)
        (Set.Ico 0 demoRendering.display_quality.Dy) ∧
      (∀ X Y : Int, (ImagePoint.mk X Y).In demoRendering.display_quality →
        (gridPixels demoRendering.display_quality.Dx demoRendering.display_quality.Dy).countP
          (fun p => decide (paintTarget demoRendering p = (X, Y))) = 1) ∧
      (demoRendering.colorSchemeFunc = BlackAndGreen →
        ∀ X Y : Int, (ImagePoint.mk X Y).In demoRendering.display_quality →
          (im.RGBAAt X Y).A = 255) :=
  ⟨rfl, by decide, by decide, by decide,
    CreateFractalImage_pixels demoFractal demoRendering rfl (by decide) (by decide) (by decide)⟩

/-! ## Termination of the escape loop -/

/-- C14: for every input (any chaotic function, threshold and
`max_iterations`, values `≤ 1` included) the loop of `GetEscapeIterations`
terminates: run with any fuel above `max_iterations - 1` it reaches its exit,
where the guard is false, `iterations` is the returned value, and the number of
calls of the chaotic function is the returned value minus `1`, hence at most
`max(0, max_iterations - 1)`. -/
theorem GetEscapeIterations_terminates (x y : ℚ) (fparams : fractalParams)
    (rparams : renderingParams) (fuel : Nat) :
    (rparams.max_iterations - 1).toNat < fuel →
    ∃ s, escapeLoopFuel fparams.function fparams.start rparams.escape_threshold
          rparams.max_iterations fuel ⟨complex x y, 1, 0⟩ = some s ∧
      ¬ (cmplxAbsLt s.a rparams.escape_threshold ∧ s.iterations < rparams.max_iterations) ∧
      s.iterations = GetEscapeIterations x y fparams rparams ∧
      (s.applications : Int) = GetEscapeIterations x y fparams rparams - 1 ∧
      (s.applications : Int) ≤ max 0 (rparams.max_iterations - 1) := by
  intro hfuel
  obtain ⟨s, hrun, hit, happ, hexit⟩ := escapeLoopFuel_spec fparams.function fparams.start
    rparams.escape_threshold rparams.max_iterations _ fuel ⟨complex x y, 1, 0⟩ rfl hfuel
  have hres : s.iterations = GetEscapeIterations x y fparams rparams := hit
  simp only at happ
  refine ⟨s, hrun, hexit, hres, by rw [← hres]; push_cast at happ; omega, ?_⟩
  by_cases hm : 1 ≤ rparams.max_iterations
  · have hle : GetEscapeIterations x y fparams rparams ≤ rparams.max_iterations :=
      escapeLoop_le _ _ _ _ _ _ _ rfl hm
    rw [max_eq_right (by omega)]
    push_cast at happ
    omega
  · have h1 : GetEscapeIterations x y fparams rparams = 1 :=
      escapeLoop_of_cap_le _ _ _ _ _ _ (by omega)
    rw [max_eq_left (by omega)]
    push_cast at happ
    omega

theorem GetEscapeIterations_terminates_witness :
    (demoRendering.max_iterations - 1).toNat < 5 ∧
    ∃ s, escapeLoopFuel demoFractal.function demoFractal.start demoRendering.escape_threshold
          demoRendering.max_iterations 5 ⟨complex 0 0, 1, 0⟩ = some s ∧
      ¬ (cmplxAbsLt s.a demoRendering.escape_threshold ∧
        s.iterations < demoRendering.max_iterations) ∧
      s.iterations = GetEscapeIterations 0 0 demoFractal demoRendering ∧
      (s.applications : Int) = GetEscapeIterations 0 0 demoFractal demoRendering - 1 ∧
      (s.applications : Int) ≤ max 0 (demoRendering.max_iterations - 1) :=
  ⟨by decide, GetEscapeIterations_terminates 0 0 demoFractal demoRendering 5 (by decide)⟩

/-! ## Pixels at the iteration cap -/

/-- C11: for every render with `max_iterations ≥ 1` (on a well-formed display
rectangle), every pixel whose escape value equals `max_iterations` is given the
normalised value `1.0`, which `BlackAndGreen` maps to opaque black
`(0, 0, 0, 255)`, whatever the rest of the histogram is; with the rectangle
anchored at the origin that pixel of the image is opaque black. -/
theorem cap_pixels_black (fparams : fractalParams) (rparams : renderingParams)
    (hx : 0 ≤ rparams.display_quality.Dx) (hy : 0 ≤ rparams.display_quality.Dy)
    (hmax : 1 ≤ rparams.max_iterations) :
    ∃ tmp_img bins, escapeBuffer fparams rparams = some tmp_img ∧
      cumulativeBins tmp_img rparams.display_quality.Dx rparams.display_quality.Dy
        rparams.max_iterations = some bins ∧
      (∀ (px py : Nat) (v : Int), getCell tmp_img px py = some v →
        v = rparams.max_iterations →
        getAt bins (v - 1) = some 1 ∧
        ∀ val, getAt bins (v - 1) = some val → BlackAndGreen val = ⟨0, 0, 0, 255⟩) ∧
      (rparams.display_quality.Min = ⟨0, 0⟩ → rparams.colorSchemeFunc = BlackAndGreen →
        ∃ im, CreateFractalImage fparams rparams = some im ∧
          ∀ px py : Nat, (px : Int) < rparams.display_quality.Dx →
            (py : Int) < rparams.display_quality.Dy →
            getCell tmp_img px py = some rparams.max_iterations →
            im.RGBAAt (px : Int) (rparams.display_quality.Dy - (py : Int) - 1) =
              ⟨0, 0, 0, 255⟩) := by
  obtain ⟨buf, hbuf, hs, _, hcells⟩ := escapeBuffer_cells_range fparams rparams hmax hx hy
  obtain ⟨hist, bins, _, hc, _, _, _, hlast⟩ := cumulativeBins_spec buf _ _
    rparams.max_iterations hs hcells hmax
  have hDx : ((rparams.display_quality.Dx.toNat : Nat) : Int) = rparams.display_quality.Dx :=
    Int.toNat_of_nonneg hx
  have hDy : ((rparams.display_quality.Dy.toNat : Nat) : Int) = rparams.display_quality.Dy :=
    Int.toNat_of_nonneg hy
  rw [hDx, hDy] at hc
  have htop : getAt bins (rparams.max_iterations - 1) = some 1 := by
    have h0 : (0 : Int) ≤ rparams.max_iterations - 1 := by omega
    have hidx : (rparams.max_iterations - 1).toNat = rparams.max_iterations.toNat - 1 := by
      omega
    simp only [getAt, if_pos h0, hidx]
    exact hlast
  have hblack : BlackAndGreen 1 = ⟨0, 0, 0, 255⟩ := by simp [BlackAndGreen]
  refine ⟨buf, bins, hbuf, hc, ?_, ?_⟩
  · intro px py v _ hv
    rw [hv]
    refine ⟨htop, fun val hval => ?_⟩
    rw [htop] at hval
    rw [← Option.some.inj hval]
    exact hblack
  · intro hmin hcs
    obtain ⟨buf1, bins1, im, hbuf1, hbins1, hrun, hrect, hpix⟩ :=
      CreateFractalImage_spec fparams rparams hmin hx hy hmax
    have hb : buf1 = buf := Option.some.inj (hbuf1.symm.trans hbuf)
    subst hb
    have hbn : bins1 = bins := Option.some.inj (hbins1.symm.trans hc)
    subst hbn
    refine ⟨im, hrun, fun px py hpx hpy hcell => ?_⟩
    have hp : (px, py) ∈ gridPixels rparams.display_quality.Dx rparams.display_quality.Dy :=
      (mem_gridPixels _ _ (px, py)).2 ⟨by show px < _; omega, by show py < _; omega⟩
    obtain ⟨hin, v, val, hv, hval, hcol⟩ := hpix (px, py) hp
    have hvm : v = rparams.max_iterations := Option.some.inj (hv.symm.trans hcell)
    rw [hvm, htop] at hval
    rw [← hrect] at hin
    have hin1 : (ImagePoint.mk (px : Int) (rparams.display_quality.Dy - (py : Int) - 1)).In
        im.Rect := hin
    rw [RGBAImage.RGBAAt, if_pos hin1]
    simp only [paintTarget] at hcol
    rw [hcol, hcs, ← Option.some.inj hval]
    exact hblack

theorem cap_pixels_black_witness :
    0 ≤ demoRendering.display_quality.Dx ∧ 0 ≤ demoRendering.display_quality.Dy ∧
    (1 : Int) ≤ demoRendering.max_iterations ∧
    ∃ tmp_img bins, escapeBuffer demoFractal demoRendering = some tmp_img ∧
      cumulativeBins tmp_img demoRendering.display_quality.Dx demoRendering.display_quality.Dy
        demoRendering.max_iterations = some bins ∧
      (∀ (px py : Nat) (v : Int), getCell tmp_img px py = some v →
        v = demoRendering.max_iterations →
        getAt bins (v - 1) = some 1 ∧
        ∀ val, getAt bins (v - 1) = some val → BlackAndGreen val = ⟨0, 0, 0, 255⟩) ∧
      (demoRendering.display_quality.Min = ⟨0, 0⟩ →
        demoRendering.colorSchemeFunc = BlackAndGreen →
        ∃ im, CreateFractalImage demoFractal demoRendering = some im ∧
          ∀ px py : Nat, (px : Int) < demoRendering.display_quality.Dx →
            (py : Int) < demoRendering.display_quality.Dy →
            getCell tmp_img px py = some demoRendering.max_iterations →
            im.RGBAAt (px : Int) (demoRendering.display_quality.Dy - (py : Int) - 1) =
              ⟨0, 0, 0, 255⟩) :=
  ⟨by decide, by decide, by decide,
    cap_pixels_black demoFractal demoRendering (by decide) (by decide) (by decide)⟩

/-! ## Independence of the task order -/

/-- C12: the escape buffer, and hence the rendered image, is a function of the
parameters only.  The `Dx * Dy` per-pixel tasks are pairwise distinct; a task
that succeeds writes its own cell, with a value that depends on the parameters
and the pixel only, and changes no other cell; and for any two orders in which
the tasks are executed the resulting buffer and the resulting image are the
same. -/
theorem render_order_independent (fparams : fractalParams) (rparams : renderingParams)
    (tasks1 tasks2 : List (Nat × Nat))
    (h1 : tasks1.Perm (gridPixels rparams.display_quality.Dx rparams.display_quality.Dy))
    (h2 : tasks2.Perm (gridPixels rparams.display_quality.Dx rparams.display_quality.Dy)) :
    (gridPixels rparams.display_quality.Dx rparams.display_quality.Dy).Nodup ∧
    (gridPixels rparams.display_quality.Dx rparams.display_quality.Dy).length =
      rparams.display_quality.Dx.toNat * rparams.display_quality.Dy.toNat ∧
    (∀ (buf buf1 : List (List Int)) (p : Nat × Nat),
      pixelTask fparams rparams buf p = some buf1 →
      getCell buf1 p.1 p.2 = some (pixelValue fparams rparams p.1 p.2) ∧
      ∀ x y, (x, y) ≠ p → getCell buf1 x y = getCell buf x y) ∧
    escapeBufferIn fparams rparams tasks1 = escapeBufferIn fparams rparams tasks2 ∧
    CreateFractalImageIn fparams rparams tasks1 = CreateFractalImageIn fparams rparams tasks2 ∧
    CreateFractalImageIn fparams rparams tasks1 = CreateFractalImage fparams rparams := by
  have e1 := escapeBufferIn_perm fparams rparams tasks1 h1
  have e2 := escapeBufferIn_perm fparams rparams tasks2 h2
  refine ⟨nodup_gridPixels _ _, length_gridPixels _ _, ?_, by rw [e1, e2], ?_, ?_⟩
  · intro buf buf1 p hp
    have hframe := setCell_frame buf buf1 p.1 p.2 _ hp
    refine ⟨by rw [hframe p.1 p.2, if_pos ⟨rfl, rfl⟩], fun x y hne => ?_⟩
    rw [hframe x y, if_neg (fun h => hne (Prod.ext h.1 h.2))]
  · simp only [CreateFractalImageIn, e1, e2]
  · simp only [CreateFractalImageIn, CreateFractalImage, e1]

theorem render_order_independent_witness :
    (gridPixels demoRendering.display_quality.Dx demoRendering.display_quality.Dy).reverse.Perm
      (gridPixels demoRendering.display_quality.Dx demoRendering.display_quality.Dy) ∧
    escapeBufferIn demoFractal demoRendering
        (gridPixels demoRendering.display_quality.Dx demoRendering.display_quality.Dy).reverse =
      escapeBufferIn demoFractal demoRendering
        (gridPixels demoRendering.display_quality.Dx demoRendering.display_quality.Dy) ∧
    CreateFractalImageIn demoFractal demoRendering
        (gridPixels demoRendering.display_quality.Dx demoRendering.display_quality.Dy).reverse =
      CreateFractalImage demoFractal demoRendering :=
  ⟨List.reverse_perm _,
    (render_order_independent demoFractal demoRendering _ _ (List.reverse_perm _)
      (List.Perm.refl _)).2.2.2.1,
    (render_order_independent demoFractal demoRendering _ _ (List.reverse_perm _)
      (List.Perm.refl _)).2.2.2.2.2⟩

/-! ## Index safety -/

/-- C13: for every rendering configuration with `max_iterations ≥ 1` (on a
well-formed display rectangle), `hist` and `bins` have `max_iterations`
entries and every index `tmp_img[x][y] - 1` used to access them lies in
`[0, max_iterations)`: the histogram update and the colour lookup succeed at
every grid pixel, and the whole of `CreateFractalImage` runs without a panic. -/
theorem indices_in_range (fparams : fractalParams) (rparams : renderingParams)
    (hx : 0 ≤ rparams.display_quality.Dx) (hy : 0 ≤ rparams.display_quality.Dy)
    (hmax : 1 ≤ rparams.max_iterations) :
    ∃ tmp_img hist bins im, escapeBuffer fparams rparams = some tmp_img ∧
      buildHist tmp_img rparams.display_quality.Dx rparams.display_quality.Dy
        rparams.max_iterations = some hist ∧
      computeBins hist rparams.display_quality.Dx rparams.display_quality.Dy
        rparams.max_iterations = some bins ∧
      CreateFractalImage fparams rparams = some im ∧
      (hist.length : Int) = rparams.max_iterations ∧
      (bins.length : Int) = rparams.max_iterations ∧
      ∀ x y : Nat, (x : Int) < rparams.display_quality.Dx →
        (y : Int) < rparams.display_quality.Dy →
        ∃ v, getCell tmp_img x y = some v ∧ 0 ≤ v - 1 ∧ v - 1 < rparams.max_iterations ∧
          (∃ c, getAt hist (v - 1) = some c) ∧ (∃ hist1, bumpHist hist v = some hist1) ∧
          ∃ val, getAt bins (v - 1) = some val := by
  obtain ⟨buf, hist, bins, im, hbuf, hb, hc, hl, hbl, hget, hrun, _, _⟩ :=
    CreateFractalImage_runs fparams rparams hx hy hmax
  refine ⟨buf, hist, bins, im, hbuf, hb, hc, hrun, by omega, by omega, fun x y hxl hyl => ?_⟩
  have hr := pixelValue_range fparams rparams x y hmax
  have hidx : (((pixelValue fparams rparams x y - 1).toNat : Nat) : Int) =
      pixelValue fparams rparams x y - 1 := by omega
  refine ⟨pixelValue fparams rparams x y, hget x y (by omega) (by omega), by omega, by omega,
    ⟨hist.getD (pixelValue fparams rparams x y - 1).toNat 0, ?_⟩,
    ⟨_, bumpHist_eq hist _ hr.1 (by omega)⟩,
    ⟨bins.getD (pixelValue fparams rparams x y - 1).toNat 0, ?_⟩⟩
  · rw [← getAt_of_getD hist _ 0 (by omega), hidx]
  · rw [← getAt_of_getD bins _ 0 (by omega), hidx]

theorem indices_in_range_witness :
    0 ≤ demoRendering.display_quality.Dx ∧ 0 ≤ demoRendering.display_quality.Dy ∧
    (1 : Int) ≤ demoRendering.max_iterations ∧
    ∃ tmp_img hist bins im, escapeBuffer demoFractal demoRendering = some tmp_img ∧
      buildHist tmp_img demoRendering.display_quality.Dx demoRendering.display_quality.Dy
        demoRendering.max_iterations = some hist ∧
      computeBins hist demoRendering.display_quality.Dx demoRendering.display_quality.Dy
        demoRendering.max_iterations = some bins ∧
      CreateFractalImage demoFractal demoRendering = some im ∧
      (hist.length : Int) = demoRendering.max_iterations ∧
      (bins.length : Int) = demoRendering.max_iterations ∧
      ∀ x y : Nat, (x : Int) < demoRendering.display_quality.Dx →
        (y : Int) < demoRendering.display_quality.Dy →
        ∃ v, getCell tmp_img x y = some v ∧ 0 ≤ v - 1 ∧ v - 1 < demoRendering.max_iterations ∧
          (∃ c, getAt hist (v - 1) = some c) ∧ (∃ hist1, bumpHist hist v = some hist1) ∧
          ∃ val, getAt bins (v - 1) = some val :=
  ⟨by decide, by decide, by decide,
    indices_in_range demoFractal demoRendering (by decide) (by decide) (by decide)⟩

/-! ## Bins equal to one below the cap -/

/-- C19: being rendered black does not imply hitting the iteration cap.  In
general `bins[v-1] = 1.0` whenever every pixel has escape value `≤ v`; and for
the buffer `[[1, 2], [2, 2]]` with `max_iterations = 3` no pixel has escape
value `3`, the largest value present is `m = 2 < 3`, `bins[m-1] = 1.0`, and
`BlackAndGreen` colours these pixels opaque black. -/
theorem black_without_cap :
    (∀ (tmp_img : List (List Int)) (Dx Dy : Nat) (max_iterations v : Int),
      BufferShape tmp_img Dx Dy → 0 < Dx * Dy →
      (∀ c ∈ bufferCells tmp_img, 1 ≤ c ∧ c ≤ max_iterations) →
      1 ≤ v → v ≤ max_iterations → (∀ c ∈ bufferCells tmp_img, c ≤ v) →
      ∃ bins, cumulativeBins tmp_img Dx Dy max_iterations = some bins ∧
        getAt bins (v - 1) = some 1 ∧
        ∀ val, getAt bins (v - 1) = some val → BlackAndGreen val = ⟨0, 0, 0, 255⟩) ∧
    ∃ bins, BufferShape [[1, 2], [2, 2]] 2 2 ∧
      (∀ c ∈ bufferCells [[1, 2], [2, 2]], 1 ≤ c ∧ c ≤ (3 : Int) ∧ c ≠ 3 ∧ c ≤ 2) ∧
      (2 : Int) ∈ bufferCells [[1, 2], [2, 2]] ∧ (2 : Int) < 3 ∧
      cumulativeBins [[1, 2], [2, 2]] (2 : Nat) (2 : Nat) 3 = some bins ∧
      getAt bins ((2 : Int) - 1) = some 1 ∧
      ∀ val, getAt bins ((2 : Int) - 1) = some val → BlackAndGreen val = ⟨0, 0, 0, 255⟩ := by
  have hgen : ∀ (tmp_img : List (List Int)) (Dx Dy : Nat) (max_iterations v : Int),
      BufferShape tmp_img Dx Dy → 0 < Dx * Dy →
      (∀ c ∈ bufferCells tmp_img, 1 ≤ c ∧ c ≤ max_iterations) →
      1 ≤ v → v ≤ max_iterations → (∀ c ∈ bufferCells tmp_img, c ≤ v) →
      ∃ bins, cumulativeBins tmp_img Dx Dy max_iterations = some bins ∧
        getAt bins (v - 1) = some 1 ∧
        ∀ val, getAt bins (v - 1) = some val → BlackAndGreen val = ⟨0, 0, 0, 255⟩ := by
    intro buf Dx Dy m v hs htotal hcells hv1 hv2 hall
    obtain ⟨hist, bins, _, hc, hl, hmax, _, hfrac⟩ :=
      cumulativeBins_fraction buf Dx Dy m hs htotal hcells
    have htq : (0 : ℚ) < ((Dx * Dy : Nat) : ℚ) := by exact_mod_cast htotal
    have hfull : cellsAtMost buf v = Dx * Dy := by
      rw [cellsAtMost_eq_length buf _ hall, length_bufferCells buf Dx Dy hs]
    have hone : getAt bins (v - 1) = some 1 := by
      have h0 : (0 : Int) ≤ v - 1 := by omega
      have h := hfrac (v - 1).toNat (by omega)
      have hidx : (((v - 1).toNat : Nat) : Int) + 1 = v := by omega
      rw [hidx, hfull, div_self (ne_of_gt htq)] at h
      simp only [getAt, if_pos h0]
      exact h
    refine ⟨bins, hc, hone, fun val hval => ?_⟩
    rw [hone] at hval
    rw [← Option.some.inj hval]
    simp [BlackAndGreen]
  refine ⟨hgen, ?_⟩
  obtain ⟨bins, hc, hone, hblack⟩ := hgen [[1, 2], [2, 2]] 2 2 3 2 (by decide) (by decide)
    (by decide) (by decide) (by decide) (by decide)
  exact ⟨bins, by decide, by decide, by decide, by decide, hc, hone, hblack⟩

/-! ## Display rectangles away from the origin -/

/-- C20: for the display rectangle from `(10, 10)` to `(20, 20)`, whose `Min`
is not the origin, every colour is written at a point `(x, Dy - y - 1)` with
`0 ≤ x < Dx`, `0 ≤ y < Dy` that falls outside the image bounds, so every pixel
inside the image bounds (for instance `(10, 10)`) is never set and keeps its
zero value, with alpha `0`. -/
theorem offset_rectangle_transparent :
    offsetRendering.display_quality.Min ≠ ⟨0, 0⟩ ∧
    (0, 0) ∈ gridPixels offsetRendering.display_quality.Dx offsetRendering.display_quality.Dy ∧
    (∀ p ∈ gridPixels offsetRendering.display_quality.Dx offsetRendering.display_quality.Dy,
      (0 : Int) ≤ (paintTarget offsetRendering p).1 ∧
      (paintTarget offsetRendering p).1 < offsetRendering.display_quality.Dx ∧
      ¬ (ImagePoint.mk (paintTarget offsetRendering p).1 (paintTarget offsetRendering p).2).In
        offsetRendering.display_quality) ∧
    ∃ im, CreateFractalImage demoFractal offsetRendering = some im ∧
      im.Rect = offsetRendering.display_quality ∧
      (ImagePoint.mk 10 10).In im.Rect ∧
      im.RGBAAt 10 10 = ⟨0, 0, 0, 0⟩ ∧ (im.RGBAAt 10 10).A = 0 ∧
      ∀ X Y : Int, (ImagePoint.mk X Y).In im.Rect → im.RGBAAt X Y = ⟨0, 0, 0, 0⟩ := by
  have hDx : offsetRendering.display_quality.Dx = 10 := by decide
  have hDy : offsetRendering.display_quality.Dy = 10 := by decide
  have hout : ∀ p ∈ gridPixels offsetRendering.display_quality.Dx
      offsetRendering.display_quality.Dy,
      (0 : Int) ≤ (paintTarget offsetRendering p).1 ∧
      (paintTarget offsetRendering p).1 < offsetRendering.display_quality.Dx ∧
      ¬ (ImagePoint.mk (paintTarget offsetRendering p).1 (paintTarget offsetRendering p).2).In
        offsetRendering.display_quality := by
    intro p hp
    obtain ⟨h1, _⟩ := (mem_gridPixels _ _ p).1 hp
    rw [hDx] at h1 ⊢
    have hMin : offsetRendering.display_quality.Min.X = 10 := rfl
    refine ⟨by simp only [paintTarget]; omega, by simp only [paintTarget]; omega, ?_⟩
    simp only [ImagePoint.In, paintTarget, hMin]
    omega
  obtain ⟨_, _, _, im, _, _, _, _, _, _, hrun, hrect, hframe⟩ :=
    CreateFractalImage_runs demoFractal offsetRendering (by decide) (by decide) (by decide)
  have hzero : ∀ X Y : Int, (ImagePoint.mk X Y).In im.Rect →
      im.RGBAAt X Y = ⟨0, 0, 0, 0⟩ := by
    intro X Y hin
    rw [RGBAImage.RGBAAt, if_pos hin]
    apply hframe X Y
    intro p hp htarget
    obtain ⟨_, _, hnot⟩ := hout p hp
    rw [htarget, ← hrect] at hnot
    exact hnot hin
  have hin10 : (ImagePoint.mk 10 10).In im.Rect := by
    rw [hrect]
    decide
  refine ⟨by decide, ?_, hout, im, hrun, hrect, hin10, hzero 10 10 hin10, ?_, hzero⟩
  · rw [mem_gridPixels]
    decide
  · rw [hzero 10 10 hin10]

/-! ## Pixel coordinates: specification -/

/-- C16: for every viewing window with `Min.X ≤ Max.X` and `Min.Y ≤ Max.Y` of
non-zero extent and every pixel `(px, py)` of the grid, `0 ≤ px < Dx` and
`0 ≤ py < Dy`, the mapped coordinate lies inside the window,
`Min.X ≤ adjustedX < Max.X` and `Min.Y ≤ adjustedY < Max.Y`, pixel `(0, 0)` is
mapped exactly to `Min`, and the per-pixel task evaluates
`GetEscapeIterations` at that coordinate (exact arithmetic). -/
theorem adjusted_in_window (fparams : fractalParams) (rparams : renderingParams) (px py : Nat)
    (hwx : rparams.viewing_window.Min.X ≤ rparams.viewing_window.Max.X)
    (hwy : rparams.viewing_window.Min.Y ≤ rparams.viewing_window.Max.Y)
    (hex : rparams.viewing_window.Dx ≠ 0) (hey : rparams.viewing_window.Dy ≠ 0)
    (hpx : (px : Int) < rparams.display_quality.Dx)
    (hpy : (py : Int) < rparams.display_quality.Dy) :
    rparams.viewing_window.Min.X ≤ adjustedX rparams px ∧
    adjustedX rparams px < rparams.viewing_window.Max.X ∧
    rparams.viewing_window.Min.Y ≤ adjustedY rparams py ∧
    adjustedY rparams py < rparams.viewing_window.Max.Y ∧
    adjustedX rparams 0 = rparams.viewing_window.Min.X ∧
    adjustedY rparams 0 = rparams.viewing_window.Min.Y ∧
    adjustedX rparams px = (px : ℚ) * (rparams.viewing_window.Dx /
      (rparams.display_quality.Dx : ℚ)) + rparams.viewing_window.Min.X ∧
    adjustedY rparams py = (py : ℚ) * (rparams.viewing_window.Dy /
      (rparams.display_quality.Dy : ℚ)) + rparams.viewing_window.Min.Y ∧
    pixelValue fparams rparams px py =
      GetEscapeIterations (adjustedX rparams px) (adjustedY rparams py) fparams rparams := by
  have hX := scaled_lt_extent (rparams.viewing_window.Min.X) (rparams.viewing_window.Max.X)
    px rparams.display_quality.Dx hwx
    (by intro h; apply hex; simp [rectangle.Dx, h]) hpx
  have hY := scaled_lt_extent (rparams.viewing_window.Min.Y) (rparams.viewing_window.Max.Y)
    py rparams.display_quality.Dy hwy
    (by intro h; apply hey; simp [rectangle.Dy, h]) hpy
  refine ⟨?_, ?_, ?_, ?_, ?_, ?_, rfl, rfl, rfl⟩
  · simp only [adjustedX, stepX, rectangle.Dx]
    linarith [hX.1]
  · simp only [adjustedX, stepX, rectangle.Dx]
    linarith [hX.2]
  · simp only [adjustedY, stepY, rectangle.Dy]
    linarith [hY.1]
  · simp only [adjustedY, stepY, rectangle.Dy]
    linarith [hY.2]
  · simp [adjustedX]
  · simp [adjustedY]

theorem adjusted_in_window_witness :
    demoRendering.viewing_window.Min.X ≤ demoRendering.viewing_window.Max.X ∧
    demoRendering.viewing_window.Min.Y ≤ demoRendering.viewing_window.Max.Y ∧
    demoRendering.viewing_window.Dx ≠ 0 ∧ demoRendering.viewing_window.Dy ≠ 0 ∧
    ((1 : Nat) : Int) < demoRendering.display_quality.Dx ∧
    ((2 : Nat) : Int) < demoRendering.display_quality.Dy ∧
    demoRendering.viewing_window.Min.X ≤ adjustedX demoRendering 1 ∧
    adjustedX demoRendering 1 < demoRendering.viewing_window.Max.X ∧
    demoRendering.viewing_window.Min.Y ≤ adjustedY demoRendering 2 ∧
    adjustedY demoRendering 2 < demoRendering.viewing_window.Max.Y := by
  have hwx : demoRendering.viewing_window.Min.X ≤ demoRendering.viewing_window.Max.X := by
    norm_num [demoRendering]
  have hwy : demoRendering.viewing_window.Min.Y ≤ demoRendering.viewing_window.Max.Y := by
    norm_num [demoRendering]
  have hex : demoRendering.viewing_window.Dx ≠ 0 := by
    norm_num [demoRendering, rectangle.Dx]
  have hey : demoRendering.viewing_window.Dy ≠ 0 := by
    norm_num [demoRendering, rectangle.Dy]
  have h := adjusted_in_window demoFractal demoRendering 1 2 hwx hwy hex hey
    (by decide) (by decide)
  exact ⟨hwx, hwy, hex, hey, by decide, by decide, h.1, h.2.1, h.2.2.1, h.2.2.2.1⟩

/-! ## First and third generation -/

/-- C18: for every `x`, `y` and every `maxIteration ≥ 1`, the first-generation
`Mandelbrot(x, y, maxIteration)` of `fgen1.go` equals `GetEscapeIterations(x, y)`
of `fgen3.go` run with the function `Man`, start constant `complex(x, y)`,
escape threshold `2.0` and `max_iterations = maxIteration` (exact arithmetic). -/
theorem Mandelbrot_eq_GetEscapeIterations (x y : ℚ) (fparams : fractalParams)
    (rparams : renderingParams) (hf : fparams.function = Man)
    (hs : fparams.start = complex x y) (ht : rparams.escape_threshold = 2)
    (hmax : 1 ≤ rparams.max_iterations) :
    Mandelbrot x y rparams.max_iterations = GetEscapeIterations x y fparams rparams := by
  have hg : (0 : ℚ) * 0 + 0 * 0 < 2 * 2 ∧ (0 : Int) < rparams.max_iterations :=
    ⟨by norm_num, by omega⟩
  rw [Mandelbrot, mandelbrotLoop, if_pos hg, GetEscapeIterations, hf, hs, ht]
  have h := mandelbrotLoop_eq_escapeLoop x y rparams.max_iterations _ x y 1 rfl
  simp only [complex]
  rw [← h]
  norm_num

theorem Mandelbrot_eq_GetEscapeIterations_witness :
    (⟨Man, complex (1 / 2) (1 / 2)⟩ : fractalParams).function = Man ∧
    (⟨Man, complex (1 / 2) (1 / 2)⟩ : fractalParams).start = complex (1 / 2) (1 / 2) ∧
    demoRendering.escape_threshold = 2 ∧ (1 : Int) ≤ demoRendering.max_iterations ∧
    Mandelbrot (1 / 2) (1 / 2) demoRendering.max_iterations =
      GetEscapeIterations (1 / 2) (1 / 2) ⟨Man, complex (1 / 2) (1 / 2)⟩ demoRendering :=
  ⟨rfl, rfl, rfl, by decide,
    Mandelbrot_eq_GetEscapeIterations (1 / 2) (1 / 2) ⟨Man, complex (1 / 2) (1 / 2)⟩
      demoRendering rfl rfl rfl (by decide)⟩

/-! ## Recurrence and running total -/

/-- C15: in exact arithmetic, for every histogram of `max_iterations` entries
and every `total > 0`, the cumulative distribution defined by the recurrence of
the specification (`bins[0] = hist[0]/total`,
`bins[v] = bins[v-1] + hist[v]/total` for `v` in `[1, max_iterations-1)`, last
bin forced to `1.0`) is the list of bins computed by the running-total form of
the code, `max_iterations = 1` included; both are defined when
`max_iterations ≥ 1`. -/
theorem specBins_eq_computeBins (hist : List Int) (Dx Dy max_iterations : Int)
    (hlen : hist.length = max_iterations.toNat) (htotal : 0 < Dx * Dy) :
    specBins hist ((Dx * Dy : Int) : ℚ) max_iterations =
      computeBins hist Dx Dy max_iterations ∧
    (0 : ℚ) < ((Dx * Dy : Int) : ℚ) ∧
    (1 ≤ max_iterations →
      ∃ bins, computeBins hist Dx Dy max_iterations = some bins ∧
        bins.length = max_iterations.toNat) := by
  have htq : (0 : ℚ) < ((Dx * Dy : Int) : ℚ) := by exact_mod_cast htotal
  by_cases hmax : 1 ≤ max_iterations
  · obtain ⟨b1, h1, hl1, hlow1, hlast1⟩ :=
      specBins_spec hist ((Dx * Dy : Int) : ℚ) max_iterations hmax hlen
    obtain ⟨b2, h2, hl2, hlow2, hlast2⟩ := computeBins_spec hist Dx Dy max_iterations hmax hlen
    have heq : b1 = b2 := by
      apply List.ext_getElem?
      intro i
      by_cases hi : i + 1 < max_iterations.toNat
      · rw [hlow1 i hi, hlow2 i hi]
      · by_cases hi2 : i = max_iterations.toNat - 1
        · rw [hi2, hlast1, hlast2]
        · rw [List.getElem?_eq_none (by omega), List.getElem?_eq_none (by omega)]
    refine ⟨by rw [h1, h2, heq], htq, fun _ => ⟨b2, h2, hl2⟩⟩
  · refine ⟨?_, htq, fun h => absurd h hmax⟩
    by_cases hneg : max_iterations < 0
    · simp [specBins, computeBins, makeSlice, hneg]
    · have hzero : max_iterations = 0 := by omega
      subst hzero
      have hnil : hist = [] := List.length_eq_zero.1 (by simpa using hlen)
      subst hnil
      simp [specBins, computeBins, makeSlice, getAt, setAt]

theorem specBins_eq_computeBins_witness :
    ([4] : List Int).length = (1 : Int).toNat ∧ (0 : Int) < 2 * 2 ∧
    specBins [4] (((2 : Int) * 2 : Int) : ℚ) 1 = computeBins [4] 2 2 1 ∧
    ([4, 0, 0, 0, 2] : List Int).length = (5 : Int).toNat ∧ (0 : Int) < 2 * 3 ∧
    specBins [4, 0, 0, 0, 2] (((2 : Int) * 3 : Int) : ℚ) 5 = computeBins [4, 0, 0, 0, 2] 2 3 5 :=
  ⟨by decide, by decide, (specBins_eq_computeBins [4] 2 2 1 (by decide) (by decide)).1,
    by decide, by decide,
    (specBins_eq_computeBins [4, 0, 0, 0, 2] 2 3 5 (by decide) (by decide)).1⟩

/-! ## Colour channels below one -/

/-- C17, as stated, fails with `float64` rounding.  At `val = roundingVal`,
the `float64` just below `1/65025`, `⌊255·√val⌋ = 0` and the claim gives
`(0, 255, 127, 255)`; the code computes `math.Pow(val, .5)*255 = 1.0`, so its
`t` is `1` and it returns `(0, 254, 127, 255)`. -/
theorem BlackAndGreen_rounding_counterexample :
    0 ≤ roundingVal ∧ roundingVal < 1 ∧
    ⌊255 * Real.sqrt (roundingVal : ℝ)⌋ = 0 ∧
    sqrtTimes255Float64 roundingVal = 1 ∧
    BlackAndGreenFloat64 roundingVal = ⟨0, 254, 127, 255⟩ ∧
    BlackAndGreenFloat64 roundingVal ≠ ⟨0, 255 - 0, 127 - 0 / 2, 255⟩ := by
  have h0 : (0 : ℚ) ≤ roundingVal := by norm_num [roundingVal]
  have h1 : roundingVal < 1 := by norm_num [roundingVal]
  have hfloor : ⌊255 * Real.sqrt (roundingVal : ℝ)⌋ = 0 := by
    rw [← sqrtTimes255_eq_floor roundingVal h0, sqrtTimes255_roundingVal]
    rfl
  have hne : ¬ roundingVal = 1 := ne_of_lt h1
  have hbg : BlackAndGreenFloat64 roundingVal = ⟨0, 254, 127, 255⟩ := by
    simp only [BlackAndGreenFloat64, if_neg hne, sqrtTimes255Float64_roundingVal]
    decide
  refine ⟨h0, h1, hfloor, sqrtTimes255Float64_roundingVal, hbg, ?_⟩
  rw [hbg]
  decide

/-- C17, amended: in exact arithmetic, for every `val` with `0 ≤ val < 1`,
writing `t = ⌊255·√val⌋`,
`BlackAndGreen(val) = (0, 255 - t, 127 - ⌊t/2⌋, 255)` with no `uint8`
wrap-around: `t` is in `[0, 254]`, green is in `[1, 255]`, blue is in
`[0, 127]`, green and blue are non-increasing in `val`, and
`BlackAndGreen(0.0) = (0, 255, 127, 255)`. -/
theorem BlackAndGreen_below_one (val : ℚ) (h0 : 0 ≤ val) (h1 : val < 1) :
    ((sqrtTimes255 val : Nat) : Int) = ⌊255 * Real.sqrt (val : ℝ)⌋ ∧
    BlackAndGreen val = ⟨0, 255 - sqrtTimes255 val, 127 - sqrtTimes255 val / 2, 255⟩ ∧
    sqrtTimes255 val ≤ 254 ∧
    ((BlackAndGreen val).G : Int) = 255 - (sqrtTimes255 val : Int) ∧
    ((BlackAndGreen val).B : Int) = 127 - (sqrtTimes255 val : Int) / 2 ∧
    1 ≤ (BlackAndGreen val).G ∧ (BlackAndGreen val).G ≤ 255 ∧
    (BlackAndGreen val).B ≤ 127 ∧
    (∀ v2 : ℚ, val ≤ v2 → v2 < 1 →
      (BlackAndGreen v2).G ≤ (BlackAndGreen val).G ∧
      (BlackAndGreen v2).B ≤ (BlackAndGreen val).B) ∧
    BlackAndGreen 0 = ⟨0, 255, 127, 255⟩ := by
  have ht := sqrtTimes255_le val h1
  have hbg := BlackAndGreen_of_lt_one val h1
  refine ⟨sqrtTimes255_eq_floor val h0, hbg, ht, ?_, ?_, ?_, ?_, ?_, ?_, ?_⟩
  · rw [hbg]
    simp only
    omega
  · rw [hbg]
    simp only
    omega
  · rw [hbg]
    simp only
    omega
  · rw [hbg]
    simp only
    omega
  · rw [hbg]
    simp only
    omega
  · intro v2 h12 h2
    have hm := sqrtTimes255_mono val v2 h12
    rw [hbg, BlackAndGreen_of_lt_one v2 h2]
    simp only
    constructor
    · omega
    · omega
  · have hz : sqrtTimes255 0 = 0 := by simp [sqrtTimes255]
    rw [BlackAndGreen_of_lt_one 0 (by norm_num), hz]

theorem BlackAndGreen_below_one_witness :
    (0 : ℚ) ≤ 1 / 4 ∧ (1 / 4 : ℚ) < 1 ∧
    BlackAndGreen (1 / 4) = ⟨0, 255 - sqrtTimes255 (1 / 4), 127 - sqrtTimes255 (1 / 4) / 2, 255⟩ ∧
    sqrtTimes255 (1 / 4) ≤ 254 ∧ 1 ≤ (BlackAndGreen (1 / 4)).G :=
  ⟨by norm_num, by norm_num,
    (BlackAndGreen_below_one (1 / 4) (by norm_num) (by norm_num)).2.1,
    (BlackAndGreen_below_one (1 / 4) (by norm_num) (by norm_num)).2.2.1,
    (BlackAndGreen_below_one (1 / 4) (by norm_num) (by norm_num)).2.2.2.2.2.1⟩

end Fgen3
